import Mathlib

/-!
Verification development for the temporal transaction rule engine
(`app/services/challenge.py`).  Timestamps are modelled as natural numbers
(seconds at the canonical second-level precision), monetary values as
rationals, Python's `heapq` heaps as lists kept sorted by the pushed tuple's
lexicographic order (push = ordered insert, peek = head, pop = tail), and
Python's stable `sorted` as `List.insertionSort` (which is stable for the
total preorders used as keys).
-/

/-! ### Numeric helpers (`EPSILON`, `_round2`, `_is_multiple_of_100`) -/

def EPSILON : ℚ := 1 / 1000000000

def ROUNDING_BASE : ℚ := 100

def NPS_RATE : ℚ := 711 / 10000

def INDEX_RATE : ℚ := 1449 / 10000

def NPS_MAX_DEDUCTION : ℚ := 200000

/-- Round-half-to-even on rationals, the rounding used by Python's `round`. -/
def roundHalfEven (q : ℚ) : ℤ :=
  if q - ⌊q⌋ < 1 / 2 then ⌊q⌋
  else if q - ⌊q⌋ > 1 / 2 then ⌊q⌋ + 1
  else if 2 ∣ ⌊q⌋ then ⌊q⌋ else ⌊q⌋ + 1

/-- `_round2`: `round(value + EPSILON, 2)`. -/
def round2 (value : ℚ) : ℚ :=
  (roundHalfEven ((value + EPSILON) * 100) : ℚ) / 100

/-- Truncation toward zero, as used by `math.fmod`. -/
def qtrunc (q : ℚ) : ℤ := if 0 ≤ q then ⌊q⌋ else ⌈q⌉

/-- `math.fmod x y = x - y * trunc (x / y)` (sign of the dividend). -/
def fmod (x y : ℚ) : ℚ := x - y * (qtrunc (x / y) : ℚ)

/-- `_is_multiple_of_100`. -/
def is_multiple_of_100 (value : ℚ) : Prop :=
  |fmod value ROUNDING_BASE| < EPSILON ∨ |fmod value ROUNDING_BASE - ROUNDING_BASE| < EPSILON

instance (value : ℚ) : Decidable (is_multiple_of_100 value) :=
  inferInstanceAs (Decidable (_ ∨ _))

/-! ### Data model -/

structure Transaction where
  date : ℕ
  amount : ℚ
  ceiling : ℚ
  remanent : ℚ
deriving DecidableEq, Repr

structure InvalidTransaction where
  date : ℕ
  amount : ℚ
  ceiling : ℚ
  remanent : ℚ
  message : String
deriving DecidableEq, Repr

structure ProcessedTransaction where
  date : ℕ
  amount : ℚ
  ceiling : ℚ
  remanent : ℚ
  effectiveRemanent : ℚ
deriving DecidableEq, Repr

structure DateRange where
  start : ℕ
  end_ : ℕ
deriving DecidableEq, Repr

structure FixedPeriod where
  start : ℕ
  end_ : ℕ
  fixed : ℚ
deriving DecidableEq, Repr

structure ExtraPeriod where
  start : ℕ
  end_ : ℕ
  extra : ℚ
deriving DecidableEq, Repr

def dup_message : String := "Duplicate transaction date."

def ceiling_message : String := "ceiling must be greater than or equal to amount."

def multiple_message : String := "ceiling must be a multiple of 100."

def remanent_message : String := "remanent must be equal to ceiling - amount."

def max_investment_message : String := "remanent exceeds maxInvestmentAmount."

def outside_k_message : String := "Transaction outside provided k date ranges."

/-- `_invalid_from_transaction`. -/
def invalid_from_transaction (t : Transaction) (message : String) : InvalidTransaction :=
  ⟨t.date, t.amount, t.ceiling, t.remanent, message⟩

/-! ### Sanitizer (`_split_transactions`) -/

/-- The loop of `_split_transactions`, threading the `seen_dates` set
(represented as the list of dates added so far). -/
def split_go (max_investment_amount : Option ℚ) :
    List Transaction → List ℕ →
    List Transaction × List InvalidTransaction × List InvalidTransaction
  | [], _ => ([], [], [])
  | transaction :: rest, seen_dates =>
    if transaction.date ∈ seen_dates then
      let r := split_go max_investment_amount rest seen_dates
      (r.1, r.2.1, invalid_from_transaction transaction dup_message :: r.2.2)
    else
      let seen2 := transaction.date :: seen_dates
      if transaction.ceiling + EPSILON < transaction.amount then
        let r := split_go max_investment_amount rest seen2
        (r.1, invalid_from_transaction transaction ceiling_message :: r.2.1, r.2.2)
      else if ¬ is_multiple_of_100 transaction.ceiling then
        let r := split_go max_investment_amount rest seen2
        (r.1, invalid_from_transaction transaction multiple_message :: r.2.1, r.2.2)
      else if |(transaction.ceiling - transaction.amount) - transaction.remanent| > 1 / 100 then
        let r := split_go max_investment_amount rest seen2
        (r.1, invalid_from_transaction transaction remanent_message :: r.2.1, r.2.2)
      else if (match max_investment_amount with
          | some m => decide (transaction.remanent > m)
          | none => false) then
        let r := split_go max_investment_amount rest seen2
        (r.1, invalid_from_transaction transaction max_investment_message :: r.2.1, r.2.2)
      else
        let r := split_go max_investment_amount rest seen2
        (transaction :: r.1, r.2.1, r.2.2)

/-- `_split_transactions`. -/
def split_transactions (transactions : List Transaction)
    (max_investment_amount : Option ℚ) :
    List Transaction × List InvalidTransaction × List InvalidTransaction :=
  split_go max_investment_amount transactions []

/-! ### IntervalMerger (`_merge_ranges`) -/

/-- Sort key of `_merge_ranges`: `(start, end)` lexicographic. -/
def rangeLE (a b : DateRange) : Prop :=
  toLex (a.start, a.end_) ≤ toLex (b.start, b.end_)

instance : DecidableRel rangeLE := fun a b =>
  inferInstanceAs (Decidable (toLex (a.start, a.end_) ≤ toLex (b.start, b.end_)))

instance : IsTotal DateRange rangeLE :=
  ⟨fun a b => le_total (toLex (a.start, a.end_)) (toLex (b.start, b.end_))⟩

instance : IsTrans DateRange rangeLE :=
  ⟨fun _ _ _ hab hbc => le_trans hab hbc⟩

/-- The fold of `_merge_ranges`, carrying the last merged range
(`merged[-1]`) separately. -/
def merge_go : DateRange → List DateRange → List DateRange
  | last, [] => [last]
  | last, current :: rest =>
    if current.start ≤ last.end_ then
      if current.end_ > last.end_ then merge_go ⟨last.start, current.end_⟩ rest
      else merge_go last rest
    else last :: merge_go current rest

/-- `_merge_ranges`. -/
def merge_ranges (ranges : List DateRange) : List DateRange :=
  match List.insertionSort rangeLE ranges with
  | [] => []
  | first :: rest => merge_go ⟨first.start, first.end_⟩ rest

/-! ### TemporalRuleEngine (`_apply_temporal_rules`) -/

/-- An entry of the `q_heap`: the tuple
`(-start_key, input_index, end, fixed)`. -/
structure QEntry where
  negStart : ℤ
  input_index : ℕ
  end_ : ℕ
  fixed : ℚ
deriving DecidableEq, Repr

/-- Lexicographic key of a `q_heap` tuple. -/
def qKey (e : QEntry) : Lex ((Lex (ℤ × ℕ)) × (Lex (ℕ × ℚ))) :=
  toLex (toLex (e.negStart, e.input_index), toLex (e.end_, e.fixed))

/-- Heap order of `q_heap` entries (Python tuple comparison). -/
def qEntryLE (a b : QEntry) : Prop := qKey a ≤ qKey b

instance : DecidableRel qEntryLE := fun a b =>
  inferInstanceAs (Decidable (qKey a ≤ qKey b))

instance : IsTotal QEntry qEntryLE := ⟨fun a b => le_total (qKey a) (qKey b)⟩

instance : IsTrans QEntry qEntryLE := ⟨fun _ _ _ hab hbc => le_trans hab hbc⟩

/-- Heap order of `p_heap` entries `(end, extra)` (Python tuple comparison). -/
def pEntryLE (a b : ℕ × ℚ) : Prop := toLex a ≤ toLex b

instance : DecidableRel pEntryLE := fun a b =>
  inferInstanceAs (Decidable (toLex a ≤ toLex b))

instance : IsTotal (ℕ × ℚ) pEntryLE := ⟨fun a b => le_total (toLex a) (toLex b)⟩

instance : IsTrans (ℕ × ℚ) pEntryLE := ⟨fun _ _ _ hab hbc => le_trans hab hbc⟩

/-- Sort order of `indexed_transactions`: stable by date. -/
def entryDateLE (a b : ℕ × Transaction) : Prop := a.2.date ≤ b.2.date

instance : DecidableRel entryDateLE := fun a b =>
  inferInstanceAs (Decidable (a.2.date ≤ b.2.date))

instance : IsTotal (ℕ × Transaction) entryDateLE :=
  ⟨fun a b => Nat.le_total a.2.date b.2.date⟩

instance : IsTrans (ℕ × Transaction) entryDateLE :=
  ⟨fun _ _ _ hab hbc => Nat.le_trans hab hbc⟩

/-- Sort order of `sorted_q_with_index`: stable by period start. -/
def qStartLE (a b : ℕ × FixedPeriod) : Prop := a.2.start ≤ b.2.start

instance : DecidableRel qStartLE := fun a b =>
  inferInstanceAs (Decidable (a.2.start ≤ b.2.start))

instance : IsTotal (ℕ × FixedPeriod) qStartLE :=
  ⟨fun a b => Nat.le_total a.2.start b.2.start⟩

instance : IsTrans (ℕ × FixedPeriod) qStartLE :=
  ⟨fun _ _ _ hab hbc => Nat.le_trans hab hbc⟩

/-- Sort order of `sorted_p`: stable by `(start, end)`. -/
def pStartEndLE (a b : ExtraPeriod) : Prop :=
  toLex (a.start, a.end_) ≤ toLex (b.start, b.end_)

instance : DecidableRel pStartEndLE := fun a b =>
  inferInstanceAs (Decidable (toLex (a.start, a.end_) ≤ toLex (b.start, b.end_)))

instance : IsTotal ExtraPeriod pStartEndLE :=
  ⟨fun a b => le_total (toLex (a.start, a.end_)) (toLex (b.start, b.end_))⟩

instance : IsTrans ExtraPeriod pStartEndLE :=
  ⟨fun _ _ _ hab hbc => le_trans hab hbc⟩

/-- The `q_heap` tuple pushed for input position `i` holding period `per`. -/
def mkQEntry (i : ℕ) (per : FixedPeriod) : QEntry :=
  ⟨-(per.start : ℤ), i, per.end_, per.fixed⟩

/-- The first `while` loop: admit every `q` period whose start has been
reached, pushing its tuple onto the heap. -/
def admitQ (current_time : ℕ) :
    List (ℕ × FixedPeriod) → List QEntry → List (ℕ × FixedPeriod) × List QEntry
  | [], q_heap => ([], q_heap)
  | (input_index, period) :: rest, q_heap =>
    if period.start ≤ current_time then
      admitQ current_time rest (List.orderedInsert qEntryLE (mkQEntry input_index period) q_heap)
    else ((input_index, period) :: rest, q_heap)

/-- The second `while` loop: lazily evict expired entries from the top of
`q_heap`. -/
def evictQ (current_time : ℕ) (q_heap : List QEntry) : List QEntry :=
  q_heap.dropWhile (fun e => decide (e.end_ < current_time))

/-- The third `while` loop: admit every `p` period whose start has been
reached, pushing `(end, extra)` and adding `extra` to the running sum. -/
def admitP (current_time : ℕ) :
    List ExtraPeriod → List (ℕ × ℚ) → ℚ → List ExtraPeriod × List (ℕ × ℚ) × ℚ
  | [], p_heap, active_p_extra => ([], p_heap, active_p_extra)
  | period :: rest, p_heap, active_p_extra =>
    if period.start ≤ current_time then
      admitP current_time rest
        (List.orderedInsert pEntryLE (period.end_, period.extra) p_heap)
        (active_p_extra + period.extra)
    else (period :: rest, p_heap, active_p_extra)

/-- The fourth `while` loop: evict expired entries from the top of `p_heap`,
subtracting each evicted period's extra from the running sum. -/
def evictP (current_time : ℕ) :
    List (ℕ × ℚ) → ℚ → List (ℕ × ℚ) × ℚ
  | [], active_p_extra => ([], active_p_extra)
  | e :: rest, active_p_extra =>
    if e.1 < current_time then evictP current_time rest (active_p_extra - e.2)
    else (e :: rest, active_p_extra)

/-- The main `for` loop of `_apply_temporal_rules`, scattering each computed
`ProcessedTransaction` into `results` at its original index. -/
def sweepGo :
    List (ℕ × Transaction) → List (ℕ × FixedPeriod) → List ExtraPeriod →
    List QEntry → List (ℕ × ℚ) → ℚ → List (Option ProcessedTransaction) →
    List (Option ProcessedTransaction)
  | [], _, _, _, _, _, results => results
  | (original_index, transaction) :: rest, q_rem, p_rem, q_heap, p_heap, active_p_extra,
      results =>
    let current_time := transaction.date
    let stepQ := admitQ current_time q_rem q_heap
    let q_heap2 := evictQ current_time stepQ.2
    let stepP := admitP current_time p_rem p_heap active_p_extra
    let stepP2 := evictP current_time stepP.2.1 stepP.2.2
    let effective_remanent :=
      (match q_heap2.head? with
        | some e => e.fixed
        | none => transaction.remanent) + stepP2.2
    let out : ProcessedTransaction :=
      ⟨transaction.date, transaction.amount, transaction.ceiling, transaction.remanent,
        round2 (max 0 effective_remanent)⟩
    sweepGo rest stepQ.1 stepP.1 q_heap2 stepP2.1 stepP2.2
      (results.set original_index (some out))

/-- `_apply_temporal_rules`. -/
def apply_temporal_rules (transactions : List Transaction)
    (q_periods : List FixedPeriod) (p_periods : List ExtraPeriod) :
    List ProcessedTransaction :=
  let indexed_transactions := List.insertionSort entryDateLE transactions.enum
  let sorted_q_with_index := List.insertionSort qStartLE q_periods.enum
  let sorted_p := List.insertionSort pStartEndLE p_periods
  (sweepGo indexed_transactions sorted_q_with_index sorted_p [] [] 0
    (List.replicate transactions.length none)).filterMap id

/-! ### Declarative description of the rule resolution (from the spec) -/

/-- The indexed `q` periods active at date `d` (inclusive interval). -/
def qActive (q_periods : List FixedPeriod) (d : ℕ) : List (ℕ × FixedPeriod) :=
  q_periods.enum.filter (fun e => decide (e.2.start ≤ d) && decide (d ≤ e.2.end_))

/-- Pick the better of two active periods: the one with the later start,
ties broken by the earlier original input position. -/
def pickQ (a e : ℕ × FixedPeriod) : ℕ × FixedPeriod :=
  if a.2.start < e.2.start ∨ (e.2.start = a.2.start ∧ e.1 < a.1) then e else a

/-- The applicable fixed override among a list of active periods: latest
start wins, ties broken by earliest original input position. -/
def bestQ : List (ℕ × FixedPeriod) → Option (ℕ × FixedPeriod)
  | [] => none
  | a :: rest => some (rest.foldl pickQ a)

/-- Sum of the extras of all `p` periods active at date `d`. -/
def pExtraSum (p_periods : List ExtraPeriod) (d : ℕ) : ℚ :=
  ((p_periods.filter (fun p => decide (p.start ≤ d) && decide (d ≤ p.end_))).map
    (fun p => p.extra)).sum

/-- The base value for a transaction: the applicable fixed override if any
`q` period is active, else the transaction's own remanent. -/
def qBase (q_periods : List FixedPeriod) (d : ℕ) (fallback : ℚ) : ℚ :=
  match bestQ (qActive q_periods d) with
  | some e => e.2.fixed
  | none => fallback

/-- One-transaction specification of the sweep line's output. -/
def resolveTransaction (q_periods : List FixedPeriod) (p_periods : List ExtraPeriod)
    (t : Transaction) : ProcessedTransaction :=
  ⟨t.date, t.amount, t.ceiling, t.remanent,
    round2 (max 0 (qBase q_periods t.date t.remanent + pExtraSum p_periods t.date))⟩

/-! ### WindowAggregator (`_sum_by_date_range`) -/

/-- Sort order used on processed transactions: stable by date. -/
def ptDateLE (a b : ProcessedTransaction) : Prop := a.date ≤ b.date

instance : DecidableRel ptDateLE := fun a b =>
  inferInstanceAs (Decidable (a.date ≤ b.date))

instance : IsTotal ProcessedTransaction ptDateLE :=
  ⟨fun a b => Nat.le_total a.date b.date⟩

instance : IsTrans ProcessedTransaction ptDateLE :=
  ⟨fun _ _ _ hab hbc => Nat.le_trans hab hbc⟩

/-- Sort order used on indexed processed transactions: stable by date. -/
def iptDateLE (a b : ℕ × ProcessedTransaction) : Prop := a.2.date ≤ b.2.date

instance : DecidableRel iptDateLE := fun a b =>
  inferInstanceAs (Decidable (a.2.date ≤ b.2.date))

instance : IsTotal (ℕ × ProcessedTransaction) iptDateLE :=
  ⟨fun a b => Nat.le_total a.2.date b.2.date⟩

instance : IsTrans (ℕ × ProcessedTransaction) iptDateLE :=
  ⟨fun _ _ _ hab hbc => Nat.le_trans hab hbc⟩

/-- `bisect_left` on a sorted list of dates: index of the first element not
less than `x`. -/
def bisect_left (dates : List ℕ) (x : ℕ) : ℕ :=
  (dates.takeWhile (fun d => decide (d < x))).length

/-- `bisect_right` on a sorted list of dates: index of the first element
greater than `x`. -/
def bisect_right (dates : List ℕ) (x : ℕ) : ℕ :=
  (dates.takeWhile (fun d => decide (d ≤ x))).length

/-- The running prefix sums of effective remanents (`prefix`), starting
with `0.0`. -/
def prefixSums (values : List ℚ) : List ℚ :=
  values.scanl (fun acc v => acc + v) 0

/-- `_sum_by_date_range`. -/
def sum_by_date_range (transactions : List ProcessedTransaction)
    (date_ranges : List DateRange) : List (DateRange × ℚ) :=
  if date_ranges.isEmpty then []
  else
    let sorted_transactions := List.insertionSort ptDateLE transactions
    let transaction_dates := sorted_transactions.map (fun t => t.date)
    let pre := prefixSums (sorted_transactions.map (fun t => t.effectiveRemanent))
    date_ranges.map (fun date_range =>
      let left_index := bisect_left transaction_dates date_range.start
      let right_index := bisect_right transaction_dates date_range.end_
      (date_range, pre.getD right_index 0 - pre.getD left_index 0))

/-! ### Request/response records and `filter_transactions` -/

structure TransactionFilterRequest where
  q : List FixedPeriod
  p : List ExtraPeriod
  k : List DateRange
  transactions : List Transaction
deriving Repr

structure TransactionFilterResponse where
  valid : List ProcessedTransaction
  invalid : List InvalidTransaction
deriving DecidableEq, Repr

/-- Treat a processed transaction as a plain transaction for
`_invalid_from_transaction` (Pydantic dumps the four shared fields). -/
def invalid_from_processed (t : ProcessedTransaction) (message : String) :
    InvalidTransaction :=
  ⟨t.date, t.amount, t.ceiling, t.remanent, message⟩

/-- The two-pointer scan of `filter_transactions`: walk the
date-sorted processed transactions, advancing one monotone pointer over the
merged ranges, and scatter the in-range flags by original index. -/
def markGo :
    List (ℕ × ProcessedTransaction) → List DateRange → List Bool → List Bool
  | [], _, flags => flags
  | (process_index, transaction) :: rest, ranges, flags =>
    let ranges2 := ranges.dropWhile (fun r => decide (r.end_ < transaction.date))
    let in_range := match ranges2.head? with
      | some r => decide (r.start ≤ transaction.date) && decide (transaction.date ≤ r.end_)
      | none => false
    markGo rest ranges2 (flags.set process_index in_range)

/-- The final partition of `filter_transactions`: keep flagged transactions,
demote the rest to invalid with the `k`-range message. -/
def partitionByFlags (processed : List ProcessedTransaction) (flags : List Bool) :
    List ProcessedTransaction × List InvalidTransaction :=
  processed.enum.foldr
    (fun e acc =>
      if flags.getD e.1 false then (e.2 :: acc.1, acc.2)
      else (acc.1, invalid_from_processed e.2 outside_k_message :: acc.2))
    ([], [])

/-- `filter_transactions`. -/
def filter_transactions (request : TransactionFilterRequest) :
    TransactionFilterResponse :=
  let split := split_transactions request.transactions none
  let processed := apply_temporal_rules split.1 request.q request.p
  let temporal_invalid := split.2.1 ++ split.2.2
  if request.k.isEmpty then ⟨processed, temporal_invalid⟩
  else
    let merged_ranges := merge_ranges request.k
    let indexed_processed := List.insertionSort iptDateLE processed.enum
    let in_range_by_index :=
      markGo indexed_processed merged_ranges (List.replicate processed.length false)
    let part := partitionByFlags processed in_range_by_index
    ⟨part.1, temporal_invalid ++ part.2⟩

/-! ### ReturnCalculator (`_calculate_tax`, `_calculate_nps_tax_benefit`,
`_investment_horizon_years`, `_real_return`, `_calculate_returns`) -/

/-- `_calculate_tax`: progressive slab tax, accumulated bracket by
bracket. -/
def calculate_tax (income : ℚ) : ℚ :=
  let taxable_income := max 0 income
  if taxable_income ≤ 700000 then 0
  else if taxable_income ≤ 1000000 then (taxable_income - 700000) * (10 / 100)
  else
    let tax1 := 300000 * (10 / 100)
    if taxable_income ≤ 1200000 then tax1 + (taxable_income - 1000000) * (15 / 100)
    else
      let tax2 := tax1 + 200000 * (15 / 100)
      if taxable_income ≤ 1500000 then tax2 + (taxable_income - 1200000) * (20 / 100)
      else
        let tax3 := tax2 + 300000 * (20 / 100)
        tax3 + (taxable_income - 1500000) * (30 / 100)

/-- `_calculate_nps_tax_benefit`. -/
def calculate_nps_tax_benefit (monthly_wage invested_amount : ℚ) : ℚ :=
  let annual_income := monthly_wage * 12
  let deduction_cap := annual_income * (10 / 100)
  let deduction := min (min invested_amount deduction_cap) NPS_MAX_DEDUCTION
  let tax_before := calculate_tax annual_income
  let tax_after := calculate_tax (annual_income - deduction)
  max 0 (tax_before - tax_after)

/-- `_investment_horizon_years`. -/
def investment_horizon_years (age : ℕ) : ℕ :=
  if age < 60 then 60 - age else 5

/-- `_real_return`. -/
def real_return (amount annual_rate inflation : ℚ) (years : ℕ) : ℚ :=
  let nominal_amount := amount * (1 + annual_rate) ^ years
  let inflation_factor := (1 + inflation / 100) ^ years
  if inflation_factor = 0 then nominal_amount
  else nominal_amount / inflation_factor

structure ReturnsRequest where
  age : ℕ
  wage : ℚ
  inflation : ℚ
  q : List FixedPeriod
  p : List ExtraPeriod
  k : List DateRange
  transactions : List Transaction
deriving Repr

structure SavingsByDate where
  start : ℕ
  end_ : ℕ
  amount : ℚ
  profits : ℚ
  taxBenefit : ℚ
  returnAmount : ℚ
deriving DecidableEq, Repr

structure ReturnsResponse where
  transactionsTotalAmount : ℚ
  transactionsTotalCeiling : ℚ
  savingsByDates : List SavingsByDate
deriving DecidableEq, Repr

/-- `_calculate_returns`. -/
def calculate_returns (request : ReturnsRequest) (annual_rate : ℚ)
    (is_nps : Bool) : ReturnsResponse :=
  let split := split_transactions request.transactions none
  let valid_transactions := split.1
  let processed := apply_temporal_rules valid_transactions request.q request.p
  let grouped_amounts := sum_by_date_range processed request.k
  let years := investment_horizon_years request.age
  let savings_by_dates := grouped_amounts.map (fun e =>
    let amount := round2 e.2
    let this_return := round2 (real_return amount annual_rate request.inflation years)
    let profits := round2 (this_return - amount)
    let tax_benefit :=
      if is_nps then round2 (calculate_nps_tax_benefit request.wage amount) else 0
    SavingsByDate.mk e.1.start e.1.end_ amount profits tax_benefit this_return)
  let transactions_total_amount :=
    round2 ((valid_transactions.map (fun t => t.amount)).sum)
  let transactions_total_ceiling :=
    round2 ((valid_transactions.map (fun t => t.ceiling)).sum)
  ⟨transactions_total_amount, transactions_total_ceiling, savings_by_dates⟩

/-- `calculate_nps_returns`. -/
def calculate_nps_returns (request : ReturnsRequest) : ReturnsResponse :=
  calculate_returns request NPS_RATE true

/-- `calculate_index_returns`. -/
def calculate_index_returns (request : ReturnsRequest) : ReturnsResponse :=
  calculate_returns request INDEX_RATE false

/-! ### The progressive tax slab table, written from the spec (§4.5) -/

/-- The slab table of §4.5: 0% up to 700,000, then 10%, 15%, 20%, 30%
marginal with the cumulative bases 30,000 / 60,000 / 120,000. -/
def progressiveTaxSpec (x : ℚ) : ℚ :=
  if x ≤ 700000 then 0
  else if x ≤ 1000000 then (x - 700000) * (10 / 100)
  else if x ≤ 1200000 then 30000 + (x - 1000000) * (15 / 100)
  else if x ≤ 1500000 then 60000 + (x - 1200000) * (20 / 100)
  else 120000 + (x - 1500000) * (30 / 100)

theorem calculate_tax_eq_spec (x : ℚ) : calculate_tax x = progressiveTaxSpec x := by
  simp only [calculate_tax, progressiveTaxSpec]
  rcases le_total x 0 with h0 | h0
  · rw [max_eq_left h0, if_pos (by norm_num : (0:ℚ) ≤ 700000),
      if_pos (by linarith : x ≤ 700000)]
  · rw [max_eq_right h0]
    split_ifs <;> ring

theorem index_savings_taxBenefit_zero (request : ReturnsRequest) :
    ∀ s ∈ (calculate_index_returns request).savingsByDates, s.taxBenefit = 0 := by
  intro s hs
  simp only [calculate_index_returns, calculate_returns] at hs
  rcases List.mem_map.1 hs with ⟨e, -, rfl⟩
  rfl

/-- C5: the NPS tax benefit is `progressiveTax(wage*12) -
progressiveTax(wage*12 - min(amount, wage*12*0.10, 200000))` floored at 0
per the §4.5 slab table; the index-fund variant's tax benefit is exactly 0;
and the concrete scenario wage=100000/month, invested=120000 yields
`progressiveTax(1200000) - progressiveTax(1080000)`. -/
theorem c5_tax_benefit :
    (∀ wage invested : ℚ, 0 ≤ wage → 0 ≤ invested →
      calculate_nps_tax_benefit wage invested
        = max 0 (progressiveTaxSpec (wage * 12)
            - progressiveTaxSpec
                (wage * 12 - min (min invested (wage * 12 * (10 / 100))) 200000))) ∧
    (∀ request : ReturnsRequest, ∀ i : ℕ,
      (((calculate_index_returns request).savingsByDates).getD i
          ⟨0, 0, 0, 0, 0, 0⟩).taxBenefit = 0) ∧
    (calculate_nps_tax_benefit 100000 120000
      = progressiveTaxSpec 1200000 - progressiveTaxSpec 1080000) := by
  refine ⟨?_, ?_, ?_⟩
  · intro wage invested _ _
    simp only [calculate_nps_tax_benefit, NPS_MAX_DEDUCTION, calculate_tax_eq_spec]
  · intro request i
    rcases h : ((calculate_index_returns request).savingsByDates)[i]? with - | s
    · simp [List.getD_eq_getElem?_getD, h]
    · have hmem : s ∈ (calculate_index_returns request).savingsByDates :=
        List.getElem?_mem h
      simp [List.getD_eq_getElem?_getD, h,
        index_savings_taxBenefit_zero request s hmem]
  · simp only [calculate_nps_tax_benefit, NPS_MAX_DEDUCTION, calculate_tax_eq_spec]
    norm_num [progressiveTaxSpec]

theorem c5_tax_benefit_witness :
    calculate_nps_tax_benefit 100000 120000
      = max 0 (progressiveTaxSpec (100000 * 12)
          - progressiveTaxSpec
              (100000 * 12 - min (min 120000 (100000 * 12 * (10 / 100))) 200000)) :=
  c5_tax_benefit.1 100000 120000 (by norm_num) (by norm_num)

/-- C7: the investment horizon is `60 - age` for `age < 60` and `5`
otherwise, and the real return divides the nominal growth by the inflation
factor except when that factor is exactly zero, in which case the nominal
value passes through. -/
theorem c7_horizon_real_return :
    (∀ age : ℕ, age < 60 → investment_horizon_years age = 60 - age) ∧
    (∀ age : ℕ, 60 ≤ age → investment_horizon_years age = 5) ∧
    (∀ (amount annual_rate inflation : ℚ) (years : ℕ),
      (1 + inflation / 100) ^ years ≠ 0 →
        real_return amount annual_rate inflation years
          = amount * (1 + annual_rate) ^ years / (1 + inflation / 100) ^ years) ∧
    (∀ (amount annual_rate inflation : ℚ) (years : ℕ),
      (1 + inflation / 100) ^ years = 0 →
        real_return amount annual_rate inflation years
          = amount * (1 + annual_rate) ^ years) := by
  refine ⟨?_, ?_, ?_, ?_⟩
  · intro age h
    simp [investment_horizon_years, h]
  · intro age h
    simp [investment_horizon_years, Nat.not_lt.2 h]
  · intro amount annual_rate inflation years h
    simp only [real_return, if_neg h]
  · intro amount annual_rate inflation years h
    simp only [real_return, if_pos h]

theorem c7_horizon_real_return_witness :
    investment_horizon_years 30 = 60 - 30 ∧
    investment_horizon_years 65 = 5 ∧
    real_return 1000 (1 / 10) 5 2 = 1000 * (1 + 1 / 10) ^ 2 / (1 + 5 / 100) ^ 2 ∧
    real_return 1000 (1 / 10) (-100) 2 = 1000 * (1 + 1 / 10) ^ 2 :=
  ⟨c7_horizon_real_return.1 30 (by norm_num),
   c7_horizon_real_return.2.1 65 (by norm_num),
   c7_horizon_real_return.2.2.1 1000 (1 / 10) 5 2 (by norm_num),
   c7_horizon_real_return.2.2.2 1000 (1 / 10) (-100) 2 (by norm_num)⟩

/-! ### Correctness of `_merge_ranges` -/

/-- Membership of a date in an inclusive range. -/
def containsD (r : DateRange) (d : ℕ) : Prop := r.start ≤ d ∧ d ≤ r.end_

instance (r : DateRange) (d : ℕ) : Decidable (containsD r d) :=
  inferInstanceAs (Decidable (_ ∧ _))

theorem rangeLE_start {a b : DateRange} (h : rangeLE a b) : a.start ≤ b.start := by
  rcases (Prod.Lex.le_iff (a.start, a.end_) (b.start, b.end_)).1 h with h1 | ⟨h1, -⟩
  · exact le_of_lt h1
  · exact le_of_eq h1

theorem rangeLE_of_end_lt {a b : DateRange} (hwf : a.start ≤ a.end_)
    (h : a.end_ < b.start) : rangeLE a b :=
  (Prod.Lex.le_iff (a.start, a.end_) (b.start, b.end_)).2
    (Or.inl (lt_of_le_of_lt hwf h))

theorem merge_go_cons (last : DateRange) (l : List DateRange) :
    ∃ e tl, merge_go last l = DateRange.mk last.start e :: tl := by
  induction l generalizing last with
  | nil => exact ⟨last.end_, [], rfl⟩
  | cons cur rest ih =>
    by_cases h1 : cur.start ≤ last.end_
    · by_cases h2 : cur.end_ > last.end_
      · simpa only [merge_go, if_pos h1, if_pos h2] using ih ⟨last.start, cur.end_⟩
      · simpa only [merge_go, if_pos h1, if_neg h2] using ih last
    · exact ⟨last.end_, merge_go cur rest, by simp only [merge_go, if_neg h1]⟩

theorem merge_go_chain (last : DateRange) (l : List DateRange)
    (hs : List.Sorted rangeLE l) (hge : ∀ x ∈ l, last.start ≤ x.start) :
    List.Chain' (fun a b => a.end_ < b.start) (merge_go last l) := by
  induction l generalizing last with
  | nil => simp [merge_go]
  | cons cur rest ih =>
    obtain ⟨hcur, hrest⟩ := List.sorted_cons.1 hs
    have hlc : last.start ≤ cur.start := hge cur (List.mem_cons_self cur rest)
    by_cases h1 : cur.start ≤ last.end_
    · by_cases h2 : cur.end_ > last.end_
      · simp only [merge_go, if_pos h1, if_pos h2]
        exact ih ⟨last.start, cur.end_⟩ hrest
          (fun x hx => le_trans hlc (rangeLE_start (hcur x hx)))
      · simp only [merge_go, if_pos h1, if_neg h2]
        exact ih last hrest (fun x hx => le_trans hlc (rangeLE_start (hcur x hx)))
    · simp only [merge_go, if_neg h1]
      obtain ⟨e, tl, heq⟩ := merge_go_cons cur rest
      rw [heq, List.chain'_cons]
      refine ⟨Nat.lt_of_not_le h1, ?_⟩
      rw [← heq]
      exact ih cur hrest (fun x hx => rangeLE_start (hcur x hx))

theorem merge_go_wf (last : DateRange) (l : List DateRange)
    (hlast : last.start ≤ last.end_) (hl : ∀ x ∈ l, x.start ≤ x.end_) :
    ∀ r ∈ merge_go last l, r.start ≤ r.end_ := by
  induction l generalizing last with
  | nil =>
    intro r hr
    simp only [merge_go, List.mem_singleton] at hr
    exact hr ▸ hlast
  | cons cur rest ih =>
    have hcur : cur.start ≤ cur.end_ := hl cur (List.mem_cons_self cur rest)
    have hrest : ∀ x ∈ rest, x.start ≤ x.end_ :=
      fun x hx => hl x (List.mem_cons_of_mem cur hx)
    by_cases h1 : cur.start ≤ last.end_
    · by_cases h2 : cur.end_ > last.end_
      · simp only [merge_go, if_pos h1, if_pos h2]
        exact ih ⟨last.start, cur.end_⟩ (le_trans hlast (le_of_lt h2)) hrest
      · simp only [merge_go, if_pos h1, if_neg h2]
        exact ih last hlast hrest
    · simp only [merge_go, if_neg h1]
      intro r hr
      rcases List.mem_cons.1 hr with rfl | hr
      · exact hlast
      · exact ih cur hcur hrest r hr

theorem merge_go_union (last : DateRange) (l : List DateRange)
    (hs : List.Sorted rangeLE l) (hge : ∀ x ∈ l, last.start ≤ x.start) (d : ℕ) :
    (∃ r ∈ merge_go last l, containsD r d) ↔
      containsD last d ∨ ∃ r ∈ l, containsD r d := by
  induction l generalizing last with
  | nil => simp [merge_go]
  | cons cur rest ih =>
    obtain ⟨hcur, hrest⟩ := List.sorted_cons.1 hs
    have hlc : last.start ≤ cur.start := hge cur (List.mem_cons_self cur rest)
    have hmono : ∀ x ∈ rest, cur.start ≤ x.start :=
      fun x hx => rangeLE_start (hcur x hx)
    by_cases h1 : cur.start ≤ last.end_
    · by_cases h2 : cur.end_ > last.end_
      · simp only [merge_go, if_pos h1, if_pos h2]
        rw [ih ⟨last.start, cur.end_⟩ hrest (fun x hx => le_trans hlc (hmono x hx))]
        have hsplit : containsD ⟨last.start, cur.end_⟩ d ↔
            containsD last d ∨ containsD cur d := by
          unfold containsD
          simp only
          omega
        rw [hsplit, List.exists_mem_cons_iff]
        tauto
      · simp only [merge_go, if_pos h1, if_neg h2]
        rw [ih last hrest (fun x hx => le_trans hlc (hmono x hx))]
        have himp : containsD cur d → containsD last d := by
          unfold containsD
          omega
        rw [List.exists_mem_cons_iff]
        tauto
    · simp only [merge_go, if_neg h1]
      rw [List.exists_mem_cons_iff, ih cur hrest hmono, List.exists_mem_cons_iff]

theorem sorted_of_gap :
    ∀ l : List DateRange, (∀ r ∈ l, r.start ≤ r.end_) →
      List.Chain' (fun a b => a.end_ < b.start) l → List.Sorted rangeLE l
  | [], _, _ => List.sorted_nil
  | [a], _, _ => List.sorted_singleton a
  | a :: b :: tl, hwf, hch => by
    rw [List.chain'_cons] at hch
    have htail := sorted_of_gap (b :: tl)
      (fun r hr => hwf r (List.mem_cons_of_mem a hr)) hch.2
    exact List.Sorted.cons
      (rangeLE_of_end_lt (hwf a (List.mem_cons_self a (b :: tl))) hch.1) htail

theorem merge_go_of_gap (last : DateRange) (l : List DateRange)
    (h : List.Chain' (fun a b => a.end_ < b.start) (last :: l)) :
    merge_go last l = last :: l := by
  induction l generalizing last with
  | nil => rfl
  | cons cur rest ih =>
    rw [List.chain'_cons] at h
    have h1 : ¬ cur.start ≤ last.end_ := Nat.not_le.2 h.1
    simp only [merge_go, if_neg h1]
    rw [ih cur h.2]

theorem merge_ranges_chain (ranges : List DateRange) :
    List.Chain' (fun a b => a.end_ < b.start) (merge_ranges ranges) := by
  unfold merge_ranges
  cases h : List.insertionSort rangeLE ranges with
  | nil => simp
  | cons first rest =>
    have hs : List.Sorted rangeLE (first :: rest) := by
      rw [← h]
      exact List.sorted_insertionSort rangeLE ranges
    obtain ⟨h1, h2⟩ := List.sorted_cons.1 hs
    exact merge_go_chain ⟨first.start, first.end_⟩ rest h2
      (fun x hx => rangeLE_start (h1 x hx))

theorem merge_ranges_wf (ranges : List DateRange)
    (hwf : ∀ r ∈ ranges, r.start ≤ r.end_) :
    ∀ r ∈ merge_ranges ranges, r.start ≤ r.end_ := by
  unfold merge_ranges
  cases h : List.insertionSort rangeLE ranges with
  | nil => simp
  | cons first rest =>
    have hperm := List.perm_insertionSort rangeLE ranges
    have hall : ∀ r ∈ first :: rest, r.start ≤ r.end_ := by
      intro r hr
      refine hwf r (hperm.subset ?_)
      rw [h]
      exact hr
    exact merge_go_wf ⟨first.start, first.end_⟩ rest
      (hall first (List.mem_cons_self first rest))
      (fun x hx => hall x (List.mem_cons_of_mem first hx))

theorem merge_ranges_sorted (ranges : List DateRange)
    (hwf : ∀ r ∈ ranges, r.start ≤ r.end_) :
    List.Sorted rangeLE (merge_ranges ranges) :=
  sorted_of_gap _ (merge_ranges_wf ranges hwf) (merge_ranges_chain ranges)

theorem merge_ranges_union (ranges : List DateRange) (d : ℕ) :
    (∃ r ∈ merge_ranges ranges, containsD r d) ↔ ∃ r ∈ ranges, containsD r d := by
  unfold merge_ranges
  cases h : List.insertionSort rangeLE ranges with
  | nil =>
    have hnil : ranges = [] := by
      have hperm := List.perm_insertionSort rangeLE ranges
      rw [h] at hperm
      exact (hperm.symm.eq_nil)
    simp [hnil]
  | cons first rest =>
    have hs : List.Sorted rangeLE (first :: rest) := by
      rw [← h]
      exact List.sorted_insertionSort rangeLE ranges
    obtain ⟨h1, h2⟩ := List.sorted_cons.1 hs
    rw [merge_go_union ⟨first.start, first.end_⟩ rest h2
      (fun x hx => rangeLE_start (h1 x hx)) d]
    change (containsD first d ∨ ∃ r ∈ rest, containsD r d) ↔ _
    have hperm : (first :: rest).Perm ranges := by
      rw [← h]
      exact List.perm_insertionSort rangeLE ranges
    constructor
    · rintro (hp | ⟨r, hr, hp⟩)
      · exact ⟨first, hperm.subset (List.mem_cons_self first rest), hp⟩
      · exact ⟨r, hperm.subset (List.mem_cons_of_mem first hr), hp⟩
    · rintro ⟨r, hr, hp⟩
      rcases List.mem_cons.1 (hperm.symm.subset hr) with rfl | hr2
      · exact Or.inl hp
      · exact Or.inr ⟨r, hr2, hp⟩

theorem merge_ranges_idem (ranges : List DateRange)
    (hwf : ∀ r ∈ ranges, r.start ≤ r.end_) :
    merge_ranges (merge_ranges ranges) = merge_ranges ranges := by
  have hchain := merge_ranges_chain ranges
  have hsorted := merge_ranges_sorted ranges hwf
  cases hM : merge_ranges ranges with
  | nil => rfl
  | cons f r =>
    rw [hM] at hchain hsorted
    show merge_ranges (f :: r) = f :: r
    unfold merge_ranges
    rw [List.Sorted.insertionSort_eq hsorted]
    exact merge_go_of_gap f r hchain

/-- C3: merging yields a sorted list of pairwise-disjoint, non-touching
ranges whose union of dates equals the union of the inputs; merging is
idempotent and the merge of the empty list is empty. -/
theorem c3_merge_correctness (ranges : List DateRange)
    (hwf : ∀ r ∈ ranges, r.start ≤ r.end_) :
    merge_ranges ([] : List DateRange) = [] ∧
    List.Sorted rangeLE (merge_ranges ranges) ∧
    List.Chain' (fun a b => a.end_ < b.start) (merge_ranges ranges) ∧
    (∀ d : ℕ, (∃ r ∈ merge_ranges ranges, containsD r d) ↔
      ∃ r ∈ ranges, containsD r d) ∧
    merge_ranges (merge_ranges ranges) = merge_ranges ranges :=
  ⟨rfl, merge_ranges_sorted ranges hwf, merge_ranges_chain ranges,
    fun d => merge_ranges_union ranges d, merge_ranges_idem ranges hwf⟩

theorem c3_merge_correctness_witness :
    (∀ r ∈ [DateRange.mk 5 9, DateRange.mk 1 3, DateRange.mk 2 4, DateRange.mk 11 12],
      r.start ≤ r.end_) ∧
    merge_ranges (merge_ranges [DateRange.mk 5 9, DateRange.mk 1 3,
      DateRange.mk 2 4, DateRange.mk 11 12])
      = merge_ranges [DateRange.mk 5 9, DateRange.mk 1 3,
          DateRange.mk 2 4, DateRange.mk 11 12] :=
  ⟨by decide,
    (c3_merge_correctness [DateRange.mk 5 9, DateRange.mk 1 3,
      DateRange.mk 2 4, DateRange.mk 11 12] (by decide)).2.2.2.2⟩

/-! ### Correctness of `_sum_by_date_range` -/

theorem scanl_getD_eq_take_sum :
    ∀ (vs : List ℚ) (acc : ℚ) (i : ℕ), i ≤ vs.length →
      (vs.scanl (fun a v => a + v) acc).getD i 0 = acc + (vs.take i).sum
  | [], acc, 0, _ => by simp
  | [], _, _ + 1, h => by simp at h
  | _ :: _, acc, 0, _ => by simp
  | v :: tl, acc, i + 1, h => by
    rw [List.scanl_cons]
    have := scanl_getD_eq_take_sum tl (acc + v) i (by simpa using h)
    simpa [add_assoc] using this

theorem take_length_takeWhile {α : Type} :
    ∀ (l : List α) (p : α → Bool), l.take (l.takeWhile p).length = l.takeWhile p
  | [], _ => rfl
  | a :: tl, p => by
    by_cases hp : p a
    · simp [List.takeWhile_cons, hp, take_length_takeWhile tl p]
    · simp [List.takeWhile_cons, hp]

theorem length_takeWhile_le_length {α : Type} (l : List α) (p : α → Bool) :
    (l.takeWhile p).length ≤ l.length :=
  List.Sublist.length_le (List.takeWhile_sublist p)

theorem sorted_segment_sum (a b : ℕ) (hab : a ≤ b) :
    ∀ S : List ProcessedTransaction, List.Sorted ptDateLE S →
      ((S.takeWhile (fun t => decide (t.date ≤ b))).map
          (fun t => t.effectiveRemanent)).sum
        - ((S.takeWhile (fun t => decide (t.date < a))).map
            (fun t => t.effectiveRemanent)).sum
        = ((S.filter (fun t => decide (a ≤ t.date) && decide (t.date ≤ b))).map
            (fun t => t.effectiveRemanent)).sum
  | [], _ => by simp
  | t :: tl, hs => by
    obtain ⟨hhead, htl⟩ := List.sorted_cons.1 hs
    have hhead2 : ∀ u ∈ tl, t.date ≤ u.date := by
      intro u hu
      have := hhead u hu
      simpa [ptDateLE] using this
    have ih := sorted_segment_sum a b hab tl htl
    by_cases h1 : t.date < a
    · have h2 : t.date ≤ b := le_trans (le_of_lt h1) hab
      have h3 : ¬ a ≤ t.date := by omega
      rw [List.takeWhile_cons, if_pos (by simpa using h2),
        List.takeWhile_cons, if_pos (by simpa using h1),
        List.filter_cons, if_neg (by simp [h3])]
      simp only [List.map_cons, List.sum_cons]
      linarith [ih]
    · by_cases h2 : t.date ≤ b
      · have ha : a ≤ t.date := by omega
        have hnil : tl.takeWhile (fun t => decide (t.date < a)) = [] := by
          cases tl with
          | nil => rfl
          | cons u r =>
            have hu : t.date ≤ u.date := hhead2 u (List.mem_cons_self u r)
            rw [List.takeWhile_cons, if_neg (by simp; omega)]
        rw [List.takeWhile_cons, if_pos (by simpa using h2),
          List.takeWhile_cons, if_neg (by simpa using h1),
          List.filter_cons, if_pos (by simp [ha, h2])]
        rw [hnil] at ih
        simp only [List.map_cons, List.sum_cons, List.map_nil, List.sum_nil] at ih ⊢
        linarith [ih]
      · have hna : ¬ t.date < a := by omega
        have hnil2 :
            tl.filter (fun t => decide (a ≤ t.date) && decide (t.date ≤ b)) = [] := by
          rw [List.filter_eq_nil_iff]
          intro u hu
          have := hhead2 u hu
          simp
          omega
        rw [List.takeWhile_cons, if_neg (by simpa using h2),
          List.takeWhile_cons, if_neg (by simpa using hna),
          List.filter_cons, if_neg (by simp; omega)]
        rw [hnil2]
        simp

theorem bisect_left_map (S : List ProcessedTransaction) (x : ℕ) :
    bisect_left (S.map (fun t => t.date)) x
      = (S.takeWhile (fun t => decide (t.date < x))).length := by
  unfold bisect_left
  rw [List.takeWhile_map, List.length_map]
  rfl

theorem bisect_right_map (S : List ProcessedTransaction) (x : ℕ) :
    bisect_right (S.map (fun t => t.date)) x
      = (S.takeWhile (fun t => decide (t.date ≤ x))).length := by
  unfold bisect_right
  rw [List.takeWhile_map, List.length_map]
  rfl

theorem prefix_diff (S : List ProcessedTransaction) (hS : List.Sorted ptDateLE S)
    (a b : ℕ) (hab : a ≤ b) :
    (prefixSums (S.map (fun t => t.effectiveRemanent))).getD
        (bisect_right (S.map (fun t => t.date)) b) 0
      - (prefixSums (S.map (fun t => t.effectiveRemanent))).getD
          (bisect_left (S.map (fun t => t.date)) a) 0
      = ((S.filter (fun t => decide (a ≤ t.date) && decide (t.date ≤ b))).map
          (fun t => t.effectiveRemanent)).sum := by
  rw [bisect_left_map, bisect_right_map]
  unfold prefixSums
  rw [scanl_getD_eq_take_sum _ _ _
      (by simpa using length_takeWhile_le_length S (fun t => decide (t.date ≤ b))),
    scanl_getD_eq_take_sum _ _ _
      (by simpa using length_takeWhile_le_length S (fun t => decide (t.date < a))),
    zero_add, zero_add, ← List.map_take, ← List.map_take,
    take_length_takeWhile, take_length_takeWhile]
  exact sorted_segment_sum a b hab S hS

theorem sum_by_date_range_spec (ts : List ProcessedTransaction) (ks : List DateRange)
    (hwf : ∀ r ∈ ks, r.start ≤ r.end_) :
    sum_by_date_range ts ks
      = ks.map (fun r => (r,
          ((ts.filter (fun t =>
              decide (r.start ≤ t.date) && decide (t.date ≤ r.end_))).map
            (fun t => t.effectiveRemanent)).sum)) := by
  cases ks with
  | nil => rfl
  | cons k0 krest =>
    simp only [sum_by_date_range, List.isEmpty_cons, Bool.false_eq_true, if_false]
    apply List.map_congr_left
    intro r hr
    have hab := hwf r hr
    have hS : List.Sorted ptDateLE (List.insertionSort ptDateLE ts) :=
      List.sorted_insertionSort ptDateLE ts
    have hperm : (List.insertionSort ptDateLE ts).Perm ts :=
      List.perm_insertionSort ptDateLE ts
    rw [prefix_diff (List.insertionSort ptDateLE ts) hS r.start r.end_ hab]
    have hsum : (((List.insertionSort ptDateLE ts).filter
        (fun t => decide (r.start ≤ t.date) && decide (t.date ≤ r.end_))).map
          (fun t => t.effectiveRemanent)).sum
        = ((ts.filter (fun t =>
            decide (r.start ≤ t.date) && decide (t.date ≤ r.end_))).map
              (fun t => t.effectiveRemanent)).sum :=
      ((hperm.filter _).map _).sum_eq
    rw [hsum]

/-- C6: each requested window's aggregate is the sum of
`effectiveRemanent` over exactly the transactions whose date lies in the
inclusive window, independently of transaction order, with one output pair
per requested window in caller order and no merging or deduplication. -/
theorem c6_window_sums (ts : List ProcessedTransaction) (ks : List DateRange)
    (hwf : ∀ r ∈ ks, r.start ≤ r.end_) :
    sum_by_date_range ts ks
      = ks.map (fun r => (r,
          ((ts.filter (fun t =>
              decide (r.start ≤ t.date) && decide (t.date ≤ r.end_))).map
            (fun t => t.effectiveRemanent)).sum)) ∧
    (∀ ts' : List ProcessedTransaction, ts'.Perm ts →
      sum_by_date_range ts' ks = sum_by_date_range ts ks) := by
  refine ⟨sum_by_date_range_spec ts ks hwf, ?_⟩
  intro ts' hp
  rw [sum_by_date_range_spec ts ks hwf, sum_by_date_range_spec ts' ks hwf]
  apply List.map_congr_left
  intro r _
  have := ((hp.filter (fun t =>
      decide (r.start ≤ t.date) && decide (t.date ≤ r.end_))).map
        (fun t => t.effectiveRemanent)).sum_eq
  rw [this]

theorem c6_window_sums_witness :
    sum_by_date_range
        [ProcessedTransaction.mk 20 0 0 0 7, ProcessedTransaction.mk 10 0 0 0 5]
        [DateRange.mk 10 20, DateRange.mk 10 20, DateRange.mk 21 30]
      = [(DateRange.mk 10 20, 12), (DateRange.mk 10 20, 12), (DateRange.mk 21 30, 0)] := by
  have h := (c6_window_sums
    [ProcessedTransaction.mk 20 0 0 0 7, ProcessedTransaction.mk 10 0 0 0 5]
    [DateRange.mk 10 20, DateRange.mk 10 20, DateRange.mk 21 30]
    (by decide)).1
  rw [h]
  norm_num

/-! ### Reference descriptions of the Sanitizer (from the spec) -/

/-- First failing check, in the spec's fixed priority order (§4.1). -/
def classify_message (max_investment_amount : Option ℚ) (t : Transaction) :
    Option String :=
  if ¬ (t.amount ≤ t.ceiling + EPSILON) then some ceiling_message
  else if ¬ is_multiple_of_100 t.ceiling then some multiple_message
  else if ¬ (|t.remanent - (t.ceiling - t.amount)| ≤ 1 / 100) then some remanent_message
  else
    match max_investment_amount with
    | some m => if ¬ (t.remanent ≤ m) then some max_investment_message else none
    | none => none

/-- Specification-side split: duplicates first, then the first-failure
classification, valid transactions kept in input order. -/
def spec_split (max_investment_amount : Option ℚ) :
    List Transaction → List ℕ →
    List Transaction × List InvalidTransaction × List InvalidTransaction
  | [], _ => ([], [], [])
  | t :: rest, seen =>
    if t.date ∈ seen then
      let r := spec_split max_investment_amount rest seen
      (r.1, r.2.1, invalid_from_transaction t dup_message :: r.2.2)
    else
      let r := spec_split max_investment_amount rest (t.date :: seen)
      match classify_message max_investment_amount t with
      | some msg => (r.1, invalid_from_transaction t msg :: r.2.1, r.2.2)
      | none => (t :: r.1, r.2.1, r.2.2)

theorem split_go_eq_spec (mi : Option ℚ) :
    ∀ (ts : List Transaction) (seen : List ℕ),
      split_go mi ts seen = spec_split mi ts seen
  | [], _ => rfl
  | t :: rest, seen => by
    have ih := split_go_eq_spec mi rest
    by_cases hd : t.date ∈ seen
    · simp only [split_go, spec_split, if_pos hd, ih]
    · simp only [split_go, spec_split, if_neg hd]
      by_cases h1 : t.ceiling + EPSILON < t.amount
      · have hcl : classify_message mi t = some ceiling_message := by
          rw [classify_message.eq_def, if_pos (not_le.2 h1)]
        rw [if_pos h1, hcl]
        simp only [ih]
      · by_cases h2 : is_multiple_of_100 t.ceiling
        · by_cases h3 : |t.ceiling - t.amount - t.remanent| > 1 / 100
          · have hcl : classify_message mi t = some remanent_message := by
              rw [classify_message.eq_def, if_neg (not_not_intro (not_lt.1 h1)),
                if_neg (not_not_intro h2),
                if_pos (by rw [abs_sub_comm]; exact not_le.2 h3)]
            rw [if_neg h1, if_neg (not_not_intro h2), if_pos h3, hcl]
            simp only [ih]
          · cases mi with
            | none =>
              have hcl : classify_message none t = none := by
                rw [classify_message.eq_def, if_neg (not_not_intro (not_lt.1 h1)),
                  if_neg (not_not_intro h2),
                  if_neg (by rw [not_not, abs_sub_comm]; exact not_lt.1 h3)]
              rw [if_neg h1, if_neg (not_not_intro h2), if_neg h3, hcl]
              simp only [ih]
              rfl
            | some m =>
              by_cases h4 : t.remanent > m
              · have hcl : classify_message (some m) t = some max_investment_message := by
                  rw [classify_message.eq_def, if_neg (not_not_intro (not_lt.1 h1)),
                    if_neg (not_not_intro h2),
                    if_neg (by rw [not_not, abs_sub_comm]; exact not_lt.1 h3)]
                  exact if_pos (not_le.2 h4)
                rw [if_neg h1, if_neg (not_not_intro h2), if_neg h3, hcl]
                rw [if_pos (decide_eq_true h4)]
                simp only [ih]
              · have hcl : classify_message (some m) t = none := by
                  rw [classify_message.eq_def, if_neg (not_not_intro (not_lt.1 h1)),
                    if_neg (not_not_intro h2),
                    if_neg (by rw [not_not, abs_sub_comm]; exact not_lt.1 h3)]
                  exact if_neg (not_not_intro (not_lt.1 h4))
                rw [if_neg h1, if_neg (not_not_intro h2), if_neg h3, hcl]
                rw [if_neg (fun hc => h4 (of_decide_eq_true hc))]
                simp only [ih]
        · have hcl : classify_message mi t = some multiple_message := by
            rw [classify_message.eq_def, if_neg (not_not_intro (not_lt.1 h1)), if_pos h2]
          rw [if_neg h1, if_pos h2, hcl]
          simp only [ih]

theorem split_go_valid_sublist (mi : Option ℚ) :
    ∀ (ts : List Transaction) (seen : List ℕ),
      (split_go mi ts seen).1.Sublist ts
  | [], _ => by simp [split_go]
  | t :: rest, seen => by
    simp only [split_go]
    split_ifs <;>
      first
        | exact (split_go_valid_sublist mi rest seen).cons t
        | exact (split_go_valid_sublist mi rest (t.date :: seen)).cons t
        | exact (split_go_valid_sublist mi rest (t.date :: seen)).cons₂ t

/-- C4: the Sanitizer's split diverts already-seen timestamps to
duplicates and classifies every other transaction by the fixed
short-circuit check order (ceiling ≥ amount, multiple of 100, remanent
consistency, optional maxInvestment cap) with the exact failure messages,
and transactions passing all checks are kept in `valid` in their original
input order (a sublist of the input). -/
theorem c4_sanitizer_split (ts : List Transaction) (mi : Option ℚ) :
    split_transactions ts mi = spec_split mi ts [] ∧
    (split_transactions ts mi).1.Sublist ts :=
  ⟨split_go_eq_spec mi ts [], split_go_valid_sublist mi ts []⟩

/-! ### Duplicate handling (C10) -/

/-- Specification-side duplicate extraction: a transaction is a duplicate
exactly when any earlier input transaction (valid or not) carries the same
timestamp. -/
def spec_dups_go : List Transaction → List Transaction → List InvalidTransaction
  | _, [] => []
  | pre, t :: rest =>
    if pre.any (fun u => u.date == t.date) then
      invalid_from_transaction t dup_message :: spec_dups_go (pre ++ [t]) rest
    else spec_dups_go (pre ++ [t]) rest

def spec_dups (ts : List Transaction) : List InvalidTransaction :=
  spec_dups_go [] ts

theorem split_go_dups_eq (mi : Option ℚ) :
    ∀ (ts : List Transaction) (seen : List ℕ) (pre : List Transaction),
      (∀ d : ℕ, d ∈ seen ↔ pre.any (fun u => u.date == d) = true) →
      (split_go mi ts seen).2.2 = spec_dups_go pre ts
  | [], _, _, _ => by simp [split_go, spec_dups_go]
  | t :: rest, seen, pre, hiff => by
    by_cases hd : t.date ∈ seen
    · have hany : pre.any (fun u => u.date == t.date) = true := (hiff t.date).1 hd
      have hkeep : ∀ d : ℕ, d ∈ seen ↔ (pre ++ [t]).any (fun u => u.date == d) = true := by
        intro d
        simp only [List.any_append, List.any_cons, List.any_nil, Bool.or_eq_true,
          beq_iff_eq, Bool.or_false]
        constructor
        · intro h
          exact Or.inl ((hiff d).1 h)
        · rintro (h | rfl)
          · exact (hiff d).2 h
          · exact hd
      rw [spec_dups_go, if_pos hany]
      simp only [split_go, if_pos hd]
      rw [split_go_dups_eq mi rest seen (pre ++ [t]) hkeep]
    · have hany : pre.any (fun u => u.date == t.date) = false := by
        rw [← Bool.not_eq_true]
        intro hc
        exact hd ((hiff t.date).2 hc)
      have hnext : ∀ d : ℕ,
          d ∈ t.date :: seen ↔ (pre ++ [t]).any (fun u => u.date == d) = true := by
        intro d
        simp only [List.mem_cons, List.any_append, List.any_cons, List.any_nil,
          Bool.or_eq_true, beq_iff_eq, Bool.or_false]
        constructor
        · rintro (rfl | h)
          · exact Or.inr rfl
          · exact Or.inl ((hiff d).1 h)
        · rintro (h | rfl)
          · exact Or.inr ((hiff d).2 h)
          · exact Or.inl rfl
      have hrec := split_go_dups_eq mi rest (t.date :: seen) (pre ++ [t]) hnext
      rw [spec_dups_go, if_neg (by simp [hany])]
      simp only [split_go, if_neg hd]
      split_ifs <;> exact hrec

/-- C10: the Sanitizer records a transaction's timestamp as seen even when
that transaction is classified invalid, so every later transaction with the
same timestamp is diverted to `duplicates` (with the duplicate message)
independently of whether it would itself have passed the checks. -/
theorem c10_duplicates (ts : List Transaction) (mi : Option ℚ) :
    (split_transactions ts mi).2.2 = spec_dups ts :=
  split_go_dups_eq mi ts [] [] (by simp)

/-! ### Heap order facts for the sweep line -/

theorem qKey_inj {a b : QEntry} (h : qKey a = qKey b) : a = b := by
  unfold qKey at h
  have h1 := congrArg (fun x => (ofLex x).1) h
  have h2 := congrArg (fun x => (ofLex x).2) h
  simp only at h1 h2
  have h3 := congrArg (fun x => (ofLex x).1) h1
  have h4 := congrArg (fun x => (ofLex x).2) h1
  have h5 := congrArg (fun x => (ofLex x).1) h2
  have h6 := congrArg (fun x => (ofLex x).2) h2
  cases a
  cases b
  simp only at h3 h4 h5 h6
  subst h3 h4 h5 h6
  rfl

theorem qEntryLE_antisymm {a b : QEntry} (h1 : qEntryLE a b) (h2 : qEntryLE b a) :
    a = b :=
  qKey_inj (le_antisymm h1 h2)

theorem qEntryLE_refl (a : QEntry) : qEntryLE a a := le_refl (qKey a)

theorem mkQEntry_le_of_start_lt {i j : ℕ} {p q : FixedPeriod}
    (h : q.start < p.start) : qEntryLE (mkQEntry i p) (mkQEntry j q) := by
  unfold qEntryLE qKey mkQEntry
  rw [Prod.Lex.le_iff]
  left
  rw [Prod.Lex.lt_iff]
  left
  simp only
  omega

theorem mkQEntry_le_of_start_eq_lt {i j : ℕ} {p q : FixedPeriod}
    (h : q.start = p.start) (hij : i < j) :
    qEntryLE (mkQEntry i p) (mkQEntry j q) := by
  unfold qEntryLE qKey mkQEntry
  rw [Prod.Lex.le_iff]
  left
  rw [Prod.Lex.lt_iff]
  right
  simp only
  exact ⟨by rw [h], hij⟩

theorem pEntryLE_fst {a b : ℕ × ℚ} (h : pEntryLE a b) : a.1 ≤ b.1 := by
  rcases (Prod.Lex.le_iff a b).1 h with h1 | ⟨h1, -⟩
  · exact le_of_lt h1
  · exact le_of_eq h1

theorem qStartLE_start {a b : ℕ × FixedPeriod} (h : qStartLE a b) :
    a.2.start ≤ b.2.start := h

theorem pStartEndLE_start {a b : ExtraPeriod} (h : pStartEndLE a b) :
    a.start ≤ b.start := by
  rcases (Prod.Lex.le_iff (a.start, a.end_) (b.start, b.end_)).1 h with h1 | ⟨h1, -⟩
  · exact le_of_lt h1
  · exact le_of_eq h1

/-! ### `bestQ` picks the latest start, ties to the earliest input index -/

/-- `m` is at least as preferable as `e`: later start wins, ties go to the
smaller input index. -/
def pickGoodLE (m e : ℕ × FixedPeriod) : Prop :=
  e.2.start < m.2.start ∨ (e.2.start = m.2.start ∧ m.1 ≤ e.1)

theorem pickGoodLE_refl (a : ℕ × FixedPeriod) : pickGoodLE a a :=
  Or.inr ⟨rfl, le_refl _⟩

theorem pickGoodLE_trans {a b c : ℕ × FixedPeriod}
    (h1 : pickGoodLE a b) (h2 : pickGoodLE b c) : pickGoodLE a c := by
  unfold pickGoodLE at *
  omega

theorem pickQ_mem (a e : ℕ × FixedPeriod) : pickQ a e = a ∨ pickQ a e = e := by
  unfold pickQ
  split_ifs
  · exact Or.inr rfl
  · exact Or.inl rfl

theorem pickQ_good_left (a e : ℕ × FixedPeriod) : pickGoodLE (pickQ a e) a := by
  unfold pickQ
  split_ifs with h
  · unfold pickGoodLE
    omega
  · exact pickGoodLE_refl a

theorem pickQ_good_right (a e : ℕ × FixedPeriod) : pickGoodLE (pickQ a e) e := by
  unfold pickQ
  split_ifs with h
  · exact pickGoodLE_refl e
  · unfold pickGoodLE
    omega

theorem foldl_pickQ_spec :
    ∀ (rest : List (ℕ × FixedPeriod)) (a : ℕ × FixedPeriod),
      (rest.foldl pickQ a) ∈ a :: rest ∧ pickGoodLE (rest.foldl pickQ a) a ∧
        ∀ e ∈ rest, pickGoodLE (rest.foldl pickQ a) e
  | [], a => ⟨List.mem_cons_self a [], pickGoodLE_refl a, by simp⟩
  | e :: rest, a => by
    obtain ⟨hmem, hgood, hall⟩ := foldl_pickQ_spec rest (pickQ a e)
    refine ⟨?_, ?_, ?_⟩
    · rcases List.mem_cons.1 hmem with h | h
      · rcases pickQ_mem a e with hp | hp <;> rw [List.foldl_cons, h, hp]
        · exact List.mem_cons_self a (e :: rest)
        · exact List.mem_cons_of_mem a (List.mem_cons_self e rest)
      · exact List.mem_cons_of_mem a (List.mem_cons_of_mem e h)
    · exact pickGoodLE_trans hgood (pickQ_good_left a e)
    · intro x hx
      rcases List.mem_cons.1 hx with rfl | hx2
      · exact pickGoodLE_trans hgood (pickQ_good_right a x)
      · exact hall x hx2

theorem bestQ_spec {l : List (ℕ × FixedPeriod)} (h : l ≠ []) :
    ∃ m, bestQ l = some m ∧ m ∈ l ∧ ∀ e ∈ l, pickGoodLE m e := by
  cases l with
  | nil => exact absurd rfl h
  | cons a rest =>
    obtain ⟨hmem, hgood, hall⟩ := foldl_pickQ_spec rest a
    refine ⟨rest.foldl pickQ a, rfl, hmem, ?_⟩
    intro e he
    rcases List.mem_cons.1 he with rfl | he2
    · exact hgood
    · exact hall e he2

/-! ### Behaviour of the admit/evict loops -/

theorem head_dropWhile_not {α : Type} (p : α → Bool) :
    ∀ (l : List α) {e : α} {rest : List α}, l.dropWhile p = e :: rest → ¬ p e = true
  | [], e, rest, h => by simp at h
  | a :: tl, e, rest, h => by
    rw [List.dropWhile_cons] at h
    by_cases hp : p a
    · rw [if_pos hp] at h
      exact head_dropWhile_not p tl h
    · rw [if_neg hp] at h
      rw [(List.cons.injEq a tl e rest ▸ h : a = e ∧ tl = rest).1] at hp
      exact hp

theorem admitQ_fst (t : ℕ) :
    ∀ (q_rem : List (ℕ × FixedPeriod)) (heap : List QEntry),
      (admitQ t q_rem heap).1 = q_rem.dropWhile (fun e => decide (e.2.start ≤ t))
  | [], _ => rfl
  | (i, per) :: rest, heap => by
    by_cases hp : per.start ≤ t
    · rw [admitQ, if_pos hp, List.dropWhile_cons, if_pos (by simpa using hp)]
      exact admitQ_fst t rest _
    · rw [admitQ, if_neg hp, List.dropWhile_cons, if_neg (by simpa using hp)]

theorem admitQ_snd_perm (t : ℕ) :
    ∀ (q_rem : List (ℕ × FixedPeriod)) (heap : List QEntry),
      (admitQ t q_rem heap).2.Perm
        ((q_rem.takeWhile (fun e => decide (e.2.start ≤ t))).map
          (fun e => mkQEntry e.1 e.2) ++ heap)
  | [], heap => List.Perm.refl heap
  | (i, per) :: rest, heap => by
    by_cases hp : per.start ≤ t
    · rw [admitQ, if_pos hp, List.takeWhile_cons, if_pos (by simpa using hp)]
      refine (admitQ_snd_perm t rest _).trans ?_
      refine ((List.Perm.append_left _
        (List.perm_orderedInsert qEntryLE _ heap)).trans ?_)
      simp only [List.map_cons, List.cons_append]
      exact List.perm_middle
    · rw [admitQ, if_neg hp, List.takeWhile_cons, if_neg (by simpa using hp)]
      simp

theorem admitQ_snd_sorted (t : ℕ) :
    ∀ (q_rem : List (ℕ × FixedPeriod)) (heap : List QEntry),
      List.Sorted qEntryLE heap → List.Sorted qEntryLE (admitQ t q_rem heap).2
  | [], _, h => h
  | (i, per) :: rest, heap, h => by
    by_cases hp : per.start ≤ t
    · rw [admitQ, if_pos hp]
      exact admitQ_snd_sorted t rest _ (h.orderedInsert _ _)
    · rw [admitQ, if_neg hp]
      exact h

theorem evictQ_sublist (t : ℕ) (h : List QEntry) : (evictQ t h).Sublist h :=
  List.dropWhile_sublist _

theorem evictQ_sorted (t : ℕ) {h : List QEntry} (hs : List.Sorted qEntryLE h) :
    List.Sorted qEntryLE (evictQ t h) :=
  List.Pairwise.sublist (evictQ_sublist t h) hs

theorem mem_evictQ (t : ℕ) {h : List QEntry} {e : QEntry}
    (hm : e ∈ h) (hne : ¬ e.end_ < t) : e ∈ evictQ t h := by
  rw [← List.takeWhile_append_dropWhile
    (p := fun e => decide (e.end_ < t)) (l := h)] at hm
  rcases List.mem_append.1 hm with hm2 | hm2
  · exact absurd (by simpa using List.mem_takeWhile_imp hm2) hne
  · exact hm2

theorem evictQ_head (t : ℕ) {h : List QEntry} {e : QEntry} {rest : List QEntry}
    (hh : evictQ t h = e :: rest) : ¬ e.end_ < t := by
  unfold evictQ at hh
  have := head_dropWhile_not (fun e => decide (e.end_ < t)) h hh
  simpa using this

theorem evictQ_eq_nil (t : ℕ) {h : List QEntry}
    (hall : ∀ e ∈ h, e.end_ < t) : evictQ t h = [] := by
  unfold evictQ
  rw [List.dropWhile_eq_nil_iff]
  intro e he
  simpa using hall e he

theorem admitP_fst (t : ℕ) :
    ∀ (p_rem : List ExtraPeriod) (heap : List (ℕ × ℚ)) (s : ℚ),
      (admitP t p_rem heap s).1 = p_rem.dropWhile (fun p => decide (p.start ≤ t))
  | [], _, _ => rfl
  | period :: rest, heap, s => by
    by_cases hp : period.start ≤ t
    · rw [admitP, if_pos hp, List.dropWhile_cons, if_pos (by simpa using hp)]
      exact admitP_fst t rest _ _
    · rw [admitP, if_neg hp, List.dropWhile_cons, if_neg (by simpa using hp)]

theorem admitP_heap_perm (t : ℕ) :
    ∀ (p_rem : List ExtraPeriod) (heap : List (ℕ × ℚ)) (s : ℚ),
      (admitP t p_rem heap s).2.1.Perm
        ((p_rem.takeWhile (fun p => decide (p.start ≤ t))).map
          (fun p => (p.end_, p.extra)) ++ heap)
  | [], heap, _ => List.Perm.refl heap
  | period :: rest, heap, s => by
    by_cases hp : period.start ≤ t
    · rw [admitP, if_pos hp, List.takeWhile_cons, if_pos (by simpa using hp)]
      refine (admitP_heap_perm t rest _ _).trans ?_
      refine ((List.Perm.append_left _
        (List.perm_orderedInsert pEntryLE _ heap)).trans ?_)
      simp only [List.map_cons, List.cons_append]
      exact List.perm_middle
    · rw [admitP, if_neg hp, List.takeWhile_cons, if_neg (by simpa using hp)]
      simp

theorem admitP_sorted (t : ℕ) :
    ∀ (p_rem : List ExtraPeriod) (heap : List (ℕ × ℚ)) (s : ℚ),
      List.Sorted pEntryLE heap → List.Sorted pEntryLE (admitP t p_rem heap s).2.1
  | [], _, _, h => h
  | period :: rest, heap, s, h => by
    by_cases hp : period.start ≤ t
    · rw [admitP, if_pos hp]
      exact admitP_sorted t rest _ _ (h.orderedInsert _ _)
    · rw [admitP, if_neg hp]
      exact h

theorem admitP_sum (t : ℕ) :
    ∀ (p_rem : List ExtraPeriod) (heap : List (ℕ × ℚ)) (s : ℚ),
      (admitP t p_rem heap s).2.2
        = s + ((p_rem.takeWhile (fun p => decide (p.start ≤ t))).map
            (fun p => p.extra)).sum
  | [], _, s => by
    show s = s + ([] : List ℚ).sum
    simp
  | period :: rest, heap, s => by
    by_cases hp : period.start ≤ t
    · rw [admitP, if_pos hp, List.takeWhile_cons, if_pos (by simpa using hp)]
      rw [admitP_sum t rest _ _]
      simp only [List.map_cons, List.sum_cons]
      ring
    · rw [admitP, if_neg hp, List.takeWhile_cons, if_neg (by simpa using hp)]
      simp

theorem evictP_fst (t : ℕ) :
    ∀ (heap : List (ℕ × ℚ)) (s : ℚ),
      (evictP t heap s).1 = heap.dropWhile (fun e => decide (e.1 < t))
  | [], _ => rfl
  | e :: rest, s => by
    by_cases hp : e.1 < t
    · rw [evictP, if_pos hp, List.dropWhile_cons, if_pos (by simpa using hp)]
      exact evictP_fst t rest _
    · rw [evictP, if_neg hp, List.dropWhile_cons, if_neg (by simpa using hp)]

theorem evictP_sum (t : ℕ) :
    ∀ (heap : List (ℕ × ℚ)) (s : ℚ), s = (heap.map (fun e => e.2)).sum →
      (evictP t heap s).2 = ((evictP t heap s).1.map (fun e => e.2)).sum
  | [], s, hs => by simpa using hs
  | e :: rest, s, hs => by
    by_cases hp : e.1 < t
    · rw [evictP, if_pos hp]
      refine evictP_sum t rest _ ?_
      simp only [List.map_cons, List.sum_cons] at hs
      linarith
    · rw [evictP, if_neg hp]
      exact hs

theorem dropWhile_end_eq_filter (t : ℕ) :
    ∀ (heap : List (ℕ × ℚ)), List.Sorted pEntryLE heap →
      heap.dropWhile (fun e => decide (e.1 < t))
        = heap.filter (fun e => ! decide (e.1 < t))
  | [], _ => rfl
  | e :: rest, hs => by
    obtain ⟨hhead, hrest⟩ := List.sorted_cons.1 hs
    by_cases hp : e.1 < t
    · rw [List.dropWhile_cons, if_pos (by simpa using hp), List.filter_cons,
        if_neg (by simpa using hp)]
      exact dropWhile_end_eq_filter t rest hrest
    · rw [List.dropWhile_cons, if_neg (by simpa using hp), List.filter_cons,
        if_pos (by simpa using hp)]
      rw [List.filter_eq_self.2]
      intro x hx
      have := pEntryLE_fst (hhead x hx)
      simp
      omega

/-! ### Sweep-line invariants -/

theorem mem_dropWhile_q (t : ℕ) :
    ∀ {q_rem : List (ℕ × FixedPeriod)}, List.Sorted qStartLE q_rem →
      ∀ {e : ℕ × FixedPeriod},
        e ∈ q_rem.dropWhile (fun e => decide (e.2.start ≤ t)) → t < e.2.start := by
  intro q_rem
  induction q_rem with
  | nil => intro _ e he; simp at he
  | cons a tl ih =>
    intro hs e he
    obtain ⟨hhead, htl⟩ := List.sorted_cons.1 hs
    rw [List.dropWhile_cons] at he
    by_cases hp : a.2.start ≤ t
    · rw [if_pos (by simpa using hp)] at he
      exact ih htl he
    · rw [if_neg (by simpa using hp)] at he
      rcases List.mem_cons.1 he with rfl | he2
      · omega
      · have := qStartLE_start (hhead e he2)
        omega

theorem mem_dropWhile_p (t : ℕ) :
    ∀ {p_rem : List ExtraPeriod}, List.Sorted pStartEndLE p_rem →
      ∀ {p : ExtraPeriod},
        p ∈ p_rem.dropWhile (fun p => decide (p.start ≤ t)) → t < p.start := by
  intro p_rem
  induction p_rem with
  | nil => intro _ p hp; simp at hp
  | cons a tl ih =>
    intro hs p hp
    obtain ⟨hhead, htl⟩ := List.sorted_cons.1 hs
    rw [List.dropWhile_cons] at hp
    by_cases hq : a.start ≤ t
    · rw [if_pos (by simpa using hq)] at hp
      exact ih htl hp
    · rw [if_neg (by simpa using hq)] at hp
      rcases List.mem_cons.1 hp with rfl | hp2
      · omega
      · have := pStartEndLE_start (hhead p hp2)
        omega

theorem enum_fst_inj {α : Type} {l : List α} {i : ℕ} {a b : α}
    (h1 : (i, a) ∈ l.enum) (h2 : (i, b) ∈ l.enum) : a = b := by
  rw [List.mk_mem_enum_iff_getElem?] at h1 h2
  rw [h1] at h2
  exact Option.some.inj h2

/-- The cursor `t0` (last processed date, if any) has reached start `x`. -/
def startedBy (t0 : Option ℕ) (x : ℕ) : Prop := ∃ t, t0 = some t ∧ x ≤ t

/-- The cursor `t0` lies strictly before start `x`. -/
def notStartedBy (t0 : Option ℕ) (x : ℕ) : Prop := ∀ t, t0 = some t → t < x

/-- Invariant of the `q` side of the sweep between iterations. -/
structure QInvariant (qs : List FixedPeriod) (t0 : Option ℕ)
    (q_rem : List (ℕ × FixedPeriod)) (q_heap : List QEntry) : Prop where
  heap_sorted : List.Sorted qEntryLE q_heap
  heap_wf : ∀ e ∈ q_heap, ∃ i per, (i, per) ∈ qs.enum ∧ e = mkQEntry i per ∧
    startedBy t0 per.start
  active_mem : ∀ t, t0 = some t → ∀ i per, (i, per) ∈ qs.enum →
    per.start ≤ t → t ≤ per.end_ → mkQEntry i per ∈ q_heap
  rem_future : ∀ i per, (i, per) ∈ qs.enum → notStartedBy t0 per.start →
    (i, per) ∈ q_rem
  rem_sorted : List.Sorted qStartLE q_rem
  rem_sub : ∀ e ∈ q_rem, e ∈ qs.enum

theorem q_step (qs : List FixedPeriod) (t0 : Option ℕ) (t : ℕ)
    (hmono : ∀ t', t0 = some t' → t' ≤ t)
    (q_rem : List (ℕ × FixedPeriod)) (q_heap : List QEntry)
    (hq : QInvariant qs t0 q_rem q_heap) :
    QInvariant qs (some t) (admitQ t q_rem q_heap).1
        (evictQ t (admitQ t q_rem q_heap).2) ∧
    (evictQ t (admitQ t q_rem q_heap).2).head?
      = (bestQ (qActive qs t)).map (fun e => mkQEntry e.1 e.2) := by
  obtain ⟨hsort, hwf, hact, hfut, hrsort, hrsub⟩ := hq
  have hperm := admitQ_snd_perm t q_rem q_heap
  have hs1 := admitQ_snd_sorted t q_rem q_heap hsort
  have hmem1 : ∀ e : QEntry, e ∈ (admitQ t q_rem q_heap).2 ↔
      e ∈ (q_rem.takeWhile (fun e => decide (e.2.start ≤ t))).map
        (fun e => mkQEntry e.1 e.2) ∨ e ∈ q_heap := by
    intro e
    rw [hperm.mem_iff, List.mem_append]
  have hwf1 : ∀ e ∈ (admitQ t q_rem q_heap).2,
      ∃ i per, (i, per) ∈ qs.enum ∧ e = mkQEntry i per ∧ per.start ≤ t := by
    intro e he
    rcases (hmem1 e).1 he with h2 | h2
    · obtain ⟨x, hx, rfl⟩ := List.mem_map.1 h2
      refine ⟨x.1, x.2, hrsub x ((List.takeWhile_sublist _).subset hx), rfl, ?_⟩
      simpa using List.mem_takeWhile_imp hx
    · obtain ⟨i, per, hienum, heq, ht1⟩ := hwf e h2
      obtain ⟨t1, ht1eq, hle1⟩ := ht1
      exact ⟨i, per, hienum, heq, le_trans hle1 (hmono t1 ht1eq)⟩
  have hinv : QInvariant qs (some t) (admitQ t q_rem q_heap).1
      (evictQ t (admitQ t q_rem q_heap).2) := by
    refine ⟨evictQ_sorted t hs1, ?_, ?_, ?_, ?_, ?_⟩
    · intro e he
      obtain ⟨i, per, hienum, heq, hle⟩ :=
        hwf1 e ((evictQ_sublist t _).subset he)
      exact ⟨i, per, hienum, heq, ⟨t, rfl, hle⟩⟩
    · intro t' ht' i per hienum hstart hend
      have ht'' : t' = t := by injection ht'.symm
      rw [ht''] at hstart hend
      have h1 : mkQEntry i per ∈ (admitQ t q_rem q_heap).2 := by
        by_cases hstart0 : startedBy t0 per.start
        · obtain ⟨t1, ht1, hle1⟩ := hstart0
          exact (hmem1 _).2 (Or.inr
            (hact t1 ht1 i per hienum hle1 (le_trans (hmono t1 ht1) hend)))
        · have hfut2 : notStartedBy t0 per.start := by
            intro t1 ht1
            by_contra hc
            exact hstart0 ⟨t1, ht1, by omega⟩
          have hrem : (i, per) ∈ q_rem := hfut i per hienum hfut2
          rw [← List.takeWhile_append_dropWhile
            (p := fun e => decide (e.2.start ≤ t)) (l := q_rem)] at hrem
          rcases List.mem_append.1 hrem with h2 | h2
          · exact (hmem1 _).2 (Or.inl (List.mem_map.2 ⟨(i, per), h2, rfl⟩))
          · have hgt : t < per.start := mem_dropWhile_q t hrsort h2
            omega
      exact mem_evictQ t h1 (by simp only [mkQEntry]; omega)
    · intro i per hienum hfut2
      have hlt : t < per.start := hfut2 t rfl
      have hrem : (i, per) ∈ q_rem :=
        hfut i per hienum (fun t1 ht1 => lt_of_le_of_lt (hmono t1 ht1) hlt)
      rw [admitQ_fst]
      rw [← List.takeWhile_append_dropWhile
        (p := fun e => decide (e.2.start ≤ t)) (l := q_rem)] at hrem
      rcases List.mem_append.1 hrem with h2 | h2
      · have := List.mem_takeWhile_imp h2
        simp at this
        omega
      · exact h2
    · rw [admitQ_fst]
      exact List.Pairwise.sublist (List.dropWhile_sublist _) hrsort
    · rw [admitQ_fst]
      intro e he
      exact hrsub e ((List.dropWhile_sublist _).subset he)
  refine ⟨hinv, ?_⟩
  rcases hA : qActive qs t with - | ⟨a0, arest⟩
  · have hnil : evictQ t (admitQ t q_rem q_heap).2 = [] := by
      refine evictQ_eq_nil t ?_
      intro e he
      obtain ⟨i, per, hienum, heq, hle⟩ := hwf1 e he
      by_contra hc
      have hele : t ≤ e.end_ := by omega
      have hmemA : (i, per) ∈ qActive qs t := by
        refine List.mem_filter.2 ⟨hienum, ?_⟩
        have heend : e.end_ = per.end_ := by rw [heq]; rfl
        simp only [Bool.and_eq_true, decide_eq_true_eq]
        omega
      rw [hA] at hmemA
      cases hmemA
    rw [hnil]
    rfl
  · have hne : qActive qs t ≠ [] := by rw [hA]; simp
    obtain ⟨m, hbest, hmmem, hall⟩ := bestQ_spec hne
    have hmact := List.mem_filter.1 hmmem
    have hmconds : m.2.start ≤ t ∧ t ≤ m.2.end_ := by
      have := hmact.2
      simpa using this
    have hmE : mkQEntry m.1 m.2 ∈ evictQ t (admitQ t q_rem q_heap).2 := by
      have := hinv.active_mem t rfl m.1 m.2 hmact.1 hmconds.1 hmconds.2
      simpa using this
    cases hh : evictQ t (admitQ t q_rem q_heap).2 with
    | nil =>
      rw [hh] at hmE
      cases hmE
    | cons e0 r0 =>
      have he0ne : ¬ e0.end_ < t := evictQ_head t hh
      have he0mem : e0 ∈ (admitQ t q_rem q_heap).2 :=
        (evictQ_sublist t _).subset (hh ▸ List.mem_cons_self e0 r0)
      obtain ⟨i0, per0, h0enum, h0eq, h0start⟩ := hwf1 e0 he0mem
      have h0end : t ≤ per0.end_ := by
        have : e0.end_ = per0.end_ := by rw [h0eq]; rfl
        omega
      have h0act : (i0, per0) ∈ qActive qs t := by
        refine List.mem_filter.2 ⟨h0enum, ?_⟩
        simp only [Bool.and_eq_true, decide_eq_true_eq]
        exact ⟨h0start, h0end⟩
      have hs2 : List.Sorted qEntryLE (e0 :: r0) := by
        rw [← hh]
        exact evictQ_sorted t hs1
      have hle1 : qEntryLE e0 (mkQEntry m.1 m.2) := by
        rw [hh] at hmE
        rcases List.mem_cons.1 hmE with heq2 | hmem2
        · rw [← heq2]
          exact qEntryLE_refl _
        · exact List.rel_of_sorted_cons hs2 _ hmem2
      have hle2 : qEntryLE (mkQEntry m.1 m.2) e0 := by
        rw [h0eq]
        rcases hall (i0, per0) h0act with hlt | ⟨heq3, hidx⟩
        · exact mkQEntry_le_of_start_lt hlt
        · rcases Nat.lt_or_ge m.1 i0 with hlt2 | hge2
          · exact mkQEntry_le_of_start_eq_lt heq3 hlt2
          · have hi0 : i0 ≤ m.1 := hge2
            have him : m.1 = i0 := by omega
            have hsame : m.2 = per0 := by
              have hm2 : (m.1, m.2) ∈ qs.enum := hmact.1
              rw [him] at hm2
              exact enum_fst_inj hm2 h0enum
            rw [him, hsame]
            exact qEntryLE_refl _
      have he0m : e0 = mkQEntry m.1 m.2 := qEntryLE_antisymm hle1 hle2
      rw [hA] at hbest
      rw [he0m, hbest]
      rfl

/-- Invariant of the `p` side of the sweep between iterations. -/
structure PInvariant (ps : List ExtraPeriod) (t0 : Option ℕ)
    (p_rem : List ExtraPeriod) (p_heap : List (ℕ × ℚ)) (s : ℚ) : Prop where
  heap_sorted : List.Sorted pEntryLE p_heap
  sum_eq : s = (p_heap.map (fun e => e.2)).sum
  content : ∀ t, t0 = some t →
    p_heap.Perm (((List.insertionSort pStartEndLE ps).filter
      (fun p => decide (p.start ≤ t) && decide (t ≤ p.end_))).map
        (fun p => (p.end_, p.extra)))
  split_done : ∃ done, List.insertionSort pStartEndLE ps = done ++ p_rem ∧
    ∀ p ∈ done, startedBy t0 p.start
  rem_future : ∀ p ∈ p_rem, notStartedBy t0 p.start
  init : t0 = none → p_heap = []

theorem filter_active_nil_of_future (t : ℕ) (l : List ExtraPeriod)
    (h : ∀ p ∈ l, t < p.start) :
    l.filter (fun p => decide (p.start ≤ t) && decide (t ≤ p.end_)) = [] := by
  rw [List.filter_eq_nil_iff]
  intro p hp
  have := h p hp
  simp
  omega

theorem active_bool_of_late (t : ℕ) (p : ExtraPeriod) (hst : p.start ≤ t) :
    ((fun e : ℕ × ℚ => ! decide (e.1 < t)) ∘ (fun p : ExtraPeriod => (p.end_, p.extra))) p
      = (decide (p.start ≤ t) && decide (t ≤ p.end_)) := by
  simp only [Function.comp_apply]
  by_cases h : p.end_ < t
  · have h2 : ¬ t ≤ p.end_ := by omega
    simp [h, h2]
  · have h2 : t ≤ p.end_ := by omega
    simp [h, h2, hst]

theorem done_bool_eq (t told : ℕ) (hmle : told ≤ t) (p : ExtraPeriod)
    (hst : p.start ≤ told) :
    (((fun e : ℕ × ℚ => ! decide (e.1 < t)) ∘
        (fun p : ExtraPeriod => (p.end_, p.extra))) p
      && (decide (p.start ≤ told) && decide (told ≤ p.end_)))
      = (decide (p.start ≤ t) && decide (t ≤ p.end_)) := by
  simp only [Function.comp_apply]
  by_cases h : t ≤ p.end_
  · have h1 : told ≤ p.end_ := by omega
    have h2 : ¬ p.end_ < t := by omega
    have h3 : p.start ≤ t := le_trans hst hmle
    simp [h, h1, h2, h3, hst]
  · have h2 : p.end_ < t := by omega
    simp [h, h2]

theorem p_step (ps : List ExtraPeriod) (t0 : Option ℕ) (t : ℕ)
    (hmono : ∀ t', t0 = some t' → t' ≤ t)
    (p_rem : List ExtraPeriod) (p_heap : List (ℕ × ℚ)) (s : ℚ)
    (hp : PInvariant ps t0 p_rem p_heap s) :
    PInvariant ps (some t) (admitP t p_rem p_heap s).1
      (evictP t (admitP t p_rem p_heap s).2.1 (admitP t p_rem p_heap s).2.2).1
      (evictP t (admitP t p_rem p_heap s).2.1 (admitP t p_rem p_heap s).2.2).2 ∧
    (evictP t (admitP t p_rem p_heap s).2.1 (admitP t p_rem p_heap s).2.2).2
      = pExtraSum ps t := by
  obtain ⟨hsort, hsum, hcont, ⟨done, hsplit, hdone⟩, hfut, hinit⟩ := hp
  have hSPs : List.Sorted pStartEndLE (List.insertionSort pStartEndLE ps) :=
    List.sorted_insertionSort pStartEndLE ps
  have hrem_sorted : List.Sorted pStartEndLE p_rem := by
    refine List.Pairwise.sublist ?_ hSPs
    rw [hsplit]
    exact List.sublist_append_right done p_rem
  have htw := List.takeWhile_append_dropWhile
    (p := fun p : ExtraPeriod => decide (p.start ≤ t)) (l := p_rem)
  have hdrop_future : ∀ p ∈ p_rem.dropWhile (fun p => decide (p.start ≤ t)),
      t < p.start := fun p hp => mem_dropWhile_p t hrem_sorted hp
  have htaken_le : ∀ p ∈ p_rem.takeWhile (fun p => decide (p.start ≤ t)),
      p.start ≤ t := fun p hp => by simpa using List.mem_takeWhile_imp hp
  have hperm1 := admitP_heap_perm t p_rem p_heap s
  have hs1 := admitP_sorted t p_rem p_heap s hsort
  have hsum1 : (admitP t p_rem p_heap s).2.2
      = ((admitP t p_rem p_heap s).2.1.map (fun e => e.2)).sum := by
    rw [admitP_sum t p_rem p_heap s,
      (hperm1.map (fun e : ℕ × ℚ => e.2)).sum_eq, List.map_append,
      List.sum_append, List.map_map]
    have hcomp : ((p_rem.takeWhile (fun p => decide (p.start ≤ t))).map
        ((fun e : ℕ × ℚ => e.2) ∘ (fun p => (p.end_, p.extra)))).sum
        = ((p_rem.takeWhile (fun p => decide (p.start ≤ t))).map
            (fun p => p.extra)).sum := rfl
    rw [hcomp, hsum]
    ring
  have hfst2 := evictP_fst t (admitP t p_rem p_heap s).2.1
    (admitP t p_rem p_heap s).2.2
  have hsum2 := evictP_sum t (admitP t p_rem p_heap s).2.1
    (admitP t p_rem p_heap s).2.2 hsum1
  have hfilter2 : (evictP t (admitP t p_rem p_heap s).2.1
      (admitP t p_rem p_heap s).2.2).1
      = (admitP t p_rem p_heap s).2.1.filter (fun e => ! decide (e.1 < t)) := by
    rw [hfst2, ← dropWhile_end_eq_filter t _ hs1]
  have hs2 : List.Sorted pEntryLE (evictP t (admitP t p_rem p_heap s).2.1
      (admitP t p_rem p_heap s).2.2).1 := by
    rw [hfilter2]
    exact hs1.filter _
  have hSPdecomp : List.insertionSort pStartEndLE ps
      = (done ++ p_rem.takeWhile (fun p => decide (p.start ≤ t)))
        ++ p_rem.dropWhile (fun p => decide (p.start ≤ t)) := by
    rw [List.append_assoc, htw, hsplit]
  have hSPfilter : (List.insertionSort pStartEndLE ps).filter
        (fun p => decide (p.start ≤ t) && decide (t ≤ p.end_))
      = done.filter (fun p => decide (p.start ≤ t) && decide (t ≤ p.end_))
        ++ (p_rem.takeWhile (fun p => decide (p.start ≤ t))).filter
            (fun p => decide (p.start ≤ t) && decide (t ≤ p.end_)) := by
    rw [hSPdecomp, List.filter_append, List.filter_append,
      filter_active_nil_of_future t _ hdrop_future, List.append_nil]
  have hkey : (p_heap.filter (fun e => ! decide (e.1 < t))).Perm
      ((done.filter
          (fun p => decide (p.start ≤ t) && decide (t ≤ p.end_))).map
            (fun p => (p.end_, p.extra))) := by
    cases t0 with
    | none =>
      have hdnil : done = [] := by
        cases done with
        | nil => rfl
        | cons d r =>
          obtain ⟨t1, ht1, -⟩ := hdone d (List.mem_cons_self d r)
          cases ht1
      rw [hinit rfl, hdnil]
      exact List.Perm.refl _
    | some told =>
      have hmle : told ≤ t := hmono told rfl
      have hSPtold : (List.insertionSort pStartEndLE ps).filter
            (fun p => decide (p.start ≤ told) && decide (told ≤ p.end_))
          = done.filter
              (fun p => decide (p.start ≤ told) && decide (told ≤ p.end_)) := by
        rw [hsplit, List.filter_append,
          filter_active_nil_of_future told p_rem
            (fun p hp => hfut p hp told rfl), List.append_nil]
      refine ((hcont told rfl).filter _).trans ?_
      rw [List.filter_map, hSPtold, List.filter_filter]
      refine List.Perm.of_eq ?_
      congr 1
      refine List.filter_congr ?_
      intro p hp
      obtain ⟨t1, ht1, hst⟩ := hdone p hp
      have ht1' : t1 = told := by injection ht1.symm
      rw [ht1'] at hst
      exact done_bool_eq t told hmle p hst
  have hc2 : (evictP t (admitP t p_rem p_heap s).2.1
      (admitP t p_rem p_heap s).2.2).1.Perm
      (((List.insertionSort pStartEndLE ps).filter
          (fun p => decide (p.start ≤ t) && decide (t ≤ p.end_))).map
        (fun p => (p.end_, p.extra))) := by
    rw [hfilter2]
    refine (hperm1.filter _).trans ?_
    rw [List.filter_append, List.filter_map, hSPfilter, List.map_append]
    have htaken_eq : (p_rem.takeWhile (fun p => decide (p.start ≤ t))).filter
          ((fun e : ℕ × ℚ => ! decide (e.1 < t)) ∘ (fun p => (p.end_, p.extra)))
        = (p_rem.takeWhile (fun p => decide (p.start ≤ t))).filter
            (fun p => decide (p.start ≤ t) && decide (t ≤ p.end_)) :=
      List.filter_congr (fun p hp => active_bool_of_late t p (htaken_le p hp))
    rw [htaken_eq]
    refine (List.Perm.append_left _ hkey).trans ?_
    exact List.perm_append_comm
  have hsum3 : (evictP t (admitP t p_rem p_heap s).2.1
      (admitP t p_rem p_heap s).2.2).2 = pExtraSum ps t := by
    rw [hsum2, (hc2.map (fun e : ℕ × ℚ => e.2)).sum_eq, List.map_map]
    have hcomp2 : (((List.insertionSort pStartEndLE ps).filter
          (fun p => decide (p.start ≤ t) && decide (t ≤ p.end_))).map
        ((fun e : ℕ × ℚ => e.2) ∘ (fun p => (p.end_, p.extra)))).sum
        = (((List.insertionSort pStartEndLE ps).filter
            (fun p => decide (p.start ≤ t) && decide (t ≤ p.end_))).map
          (fun p => p.extra)).sum := rfl
    rw [hcomp2]
    unfold pExtraSum
    exact (((List.perm_insertionSort pStartEndLE ps).filter _).map _).sum_eq
  refine ⟨⟨hs2, hsum2, ?_, ?_, ?_, ?_⟩, hsum3⟩
  · intro t' ht'
    have ht'' : t' = t := by injection ht'.symm
    rw [ht'']
    exact hc2
  · refine ⟨done ++ p_rem.takeWhile (fun p => decide (p.start ≤ t)), ?_, ?_⟩
    · rw [admitP_fst]
      exact hSPdecomp
    · intro p hp
      rcases List.mem_append.1 hp with h2 | h2
      · obtain ⟨t1, ht1, hst⟩ := hdone p h2
        exact ⟨t, rfl, le_trans hst (hmono t1 ht1)⟩
      · exact ⟨t, rfl, htaken_le p h2⟩
  · rw [admitP_fst]
    intro p hp t' ht'
    have ht'' : t' = t := by injection ht'.symm
    rw [ht'']
    exact hdrop_future p hp
  · intro h
    cases h

theorem sweepGo_eq_scatter (qs : List FixedPeriod) (ps : List ExtraPeriod) :
    ∀ (todo : List (ℕ × Transaction)) (t0 : Option ℕ)
      (q_rem : List (ℕ × FixedPeriod)) (p_rem : List ExtraPeriod)
      (q_heap : List QEntry) (p_heap : List (ℕ × ℚ)) (s : ℚ)
      (results : List (Option ProcessedTransaction)),
      List.Sorted entryDateLE todo →
      (∀ e ∈ todo, ∀ t', t0 = some t' → t' ≤ e.2.date) →
      QInvariant qs t0 q_rem q_heap →
      PInvariant ps t0 p_rem p_heap s →
      sweepGo todo q_rem p_rem q_heap p_heap s results
        = todo.foldl (fun res e => res.set e.1
            (some (resolveTransaction qs ps e.2))) results
  | [], _, _, _, _, _, _, _ => fun _ _ _ _ => rfl
  | (oi, tx) :: rest, t0, q_rem, p_rem, q_heap, p_heap, s, results => by
    intro hsorted hdate hqi hpi
    obtain ⟨hhead, hrest⟩ := List.sorted_cons.1 hsorted
    have hmono : ∀ t', t0 = some t' → t' ≤ tx.date :=
      fun t' h => hdate (oi, tx) (List.mem_cons_self _ _) t' h
    obtain ⟨hqinv2, hqhead⟩ := q_step qs t0 tx.date hmono q_rem q_heap hqi
    obtain ⟨hpinv2, hpsum⟩ := p_step ps t0 tx.date hmono p_rem p_heap s hpi
    have hdate2 : ∀ e ∈ rest, ∀ t', (some tx.date : Option ℕ) = some t' →
        t' ≤ e.2.date := by
      intro e he t' ht'
      have ht'' : t' = tx.date := by injection ht'.symm
      rw [ht'']
      exact hhead e he
    simp only [sweepGo]
    rw [hpsum] at hpinv2
    rw [hqhead, hpsum, List.foldl_cons]
    cases hb : bestQ (qActive qs tx.date) with
    | none =>
      rw [sweepGo_eq_scatter qs ps rest (some tx.date) _ _ _ _ _ _
        hrest hdate2 hqinv2 hpinv2]
      simp only [resolveTransaction, qBase, hb]
      rfl
    | some m =>
      rw [sweepGo_eq_scatter qs ps rest (some tx.date) _ _ _ _ _ _
        hrest hdate2 hqinv2 hpinv2]
      simp only [resolveTransaction, qBase, hb]
      rfl

theorem scatter_length (v : Transaction → Option ProcessedTransaction) :
    ∀ (todo : List (ℕ × Transaction)) (res : List (Option ProcessedTransaction)),
      (todo.foldl (fun r e => r.set e.1 (v e.2)) res).length = res.length
  | [], _ => rfl
  | e0 :: rest, res => by
    rw [List.foldl_cons, scatter_length v rest _, List.length_set]

theorem scatter_getElem_not_mem (v : Transaction → Option ProcessedTransaction) :
    ∀ (todo : List (ℕ × Transaction)) (res : List (Option ProcessedTransaction))
      (i : ℕ), i ∉ todo.map Prod.fst →
      (todo.foldl (fun r e => r.set e.1 (v e.2)) res)[i]? = res[i]?
  | [], _, _, _ => rfl
  | e0 :: rest, res, i, hni => by
    rw [List.foldl_cons,
      scatter_getElem_not_mem v rest _ i (fun hc => hni (by simp [hc])),
      List.getElem?_set_ne (fun hc => hni (by simp [hc]))]

theorem scatter_getElem_mem (v : Transaction → Option ProcessedTransaction) :
    ∀ (todo : List (ℕ × Transaction)) (res : List (Option ProcessedTransaction))
      (i : ℕ) (tx : Transaction),
      (todo.map Prod.fst).Nodup → (i, tx) ∈ todo → i < res.length →
      (todo.foldl (fun r e => r.set e.1 (v e.2)) res)[i]? = some (v tx)
  | [], _, _, _, _, hmem, _ => absurd hmem (List.not_mem_nil _)
  | e0 :: rest, res, i, tx, hnd, hmem, hlt => by
    rw [List.map_cons, List.nodup_cons] at hnd
    rcases List.mem_cons.1 hmem with heq | hmem2
    · have hi : e0.1 = i := by rw [← heq]
      rw [List.foldl_cons,
        scatter_getElem_not_mem v rest _ i (by rw [← hi]; exact hnd.1), hi]
      rw [List.getElem?_set_self hlt]
      have : e0.2 = tx := by rw [← heq]
      rw [this]
    · rw [List.foldl_cons]
      exact scatter_getElem_mem v rest _ i tx hnd.2 hmem2
        (by rwa [List.length_set])

/-- The crown lemma: `_apply_temporal_rules` computes, for every input
transaction in its original position, the declarative resolution
`resolveTransaction` (latest-start active `q` override with input-order
tie-break, plus the sum of active `p` extras, clamped and rounded). -/
theorem apply_temporal_rules_spec (ts : List Transaction)
    (qs : List FixedPeriod) (ps : List ExtraPeriod) :
    apply_temporal_rules ts qs ps = ts.map (resolveTransaction qs ps) := by
  have hqinv : QInvariant qs none (List.insertionSort qStartLE qs.enum) [] := by
    refine ⟨List.sorted_nil, ?_, ?_, ?_, ?_, ?_⟩
    · intro e he
      cases he
    · intro t ht
      cases ht
    · intro i per hmem _
      exact (List.perm_insertionSort qStartLE qs.enum).symm.subset hmem
    · exact List.sorted_insertionSort qStartLE qs.enum
    · intro e he
      exact (List.perm_insertionSort qStartLE qs.enum).subset he
  have hpinv : PInvariant ps none (List.insertionSort pStartEndLE ps) [] 0 := by
    refine ⟨List.sorted_nil, by simp, ?_, ⟨[], by simp, by simp⟩, ?_, fun _ => rfl⟩
    · intro t ht
      cases ht
    · intro p _ t ht
      cases ht
  have hsorted : List.Sorted entryDateLE (List.insertionSort entryDateLE ts.enum) :=
    List.sorted_insertionSort entryDateLE ts.enum
  have hdate : ∀ e ∈ List.insertionSort entryDateLE ts.enum,
      ∀ t', (none : Option ℕ) = some t' → t' ≤ e.2.date := by
    intro e _ t' ht'
    cases ht'
  have hmain := sweepGo_eq_scatter qs ps
    (List.insertionSort entryDateLE ts.enum) none
    (List.insertionSort qStartLE qs.enum)
    (List.insertionSort pStartEndLE ps) [] [] 0
    (List.replicate ts.length none) hsorted hdate hqinv hpinv
  have hperm : (List.insertionSort entryDateLE ts.enum).Perm ts.enum :=
    List.perm_insertionSort entryDateLE ts.enum
  have hnd : ((List.insertionSort entryDateLE ts.enum).map Prod.fst).Nodup := by
    refine (hperm.map Prod.fst).nodup_iff.2 ?_
    rw [List.enum_map_fst]
    exact List.nodup_range _
  have hbounds : ∀ e ∈ List.insertionSort entryDateLE ts.enum,
      e.1 < (List.replicate ts.length (none : Option ProcessedTransaction)).length := by
    intro e he
    have := List.mem_enum_iff_getElem?.1 (hperm.subset he)
    rw [List.length_replicate]
    exact (List.getElem?_eq_some.1 this).1
  have hfinal : (List.insertionSort entryDateLE ts.enum).foldl
      (fun r (e : ℕ × Transaction) =>
        r.set e.1 (some (resolveTransaction qs ps e.2)))
      (List.replicate ts.length none)
      = ts.map (fun t => some (resolveTransaction qs ps t)) := by
    apply List.ext_getElem?
    intro j
    by_cases hj : j < ts.length
    · have hmem : (j, ts[j]) ∈ List.insertionSort entryDateLE ts.enum := by
        refine hperm.symm.subset ?_
        rw [List.mk_mem_enum_iff_getElem?]
        exact List.getElem?_eq_getElem hj
      rw [scatter_getElem_mem (fun t => some (resolveTransaction qs ps t)) _ _ j
        ts[j] hnd hmem (by rwa [List.length_replicate]), List.getElem?_map,
        List.getElem?_eq_getElem hj]
      rfl
    · rw [List.getElem?_eq_none
          (by rw [scatter_length (fun t => some (resolveTransaction qs ps t)),
            List.length_replicate]; omega),
        List.getElem?_eq_none (by rw [List.length_map]; omega)]
  simp only [apply_temporal_rules]
  rw [hmain, hfinal]
  show List.filterMap id (List.map (fun t => some (resolveTransaction qs ps t)) ts)
    = ts.map (resolveTransaction qs ps)
  rw [List.filterMap_map]
  show List.filterMap (some ∘ resolveTransaction qs ps) ts
    = ts.map (resolveTransaction qs ps)
  rw [List.filterMap_eq_map]

instance (m e : ℕ × FixedPeriod) : Decidable (pickGoodLE m e) :=
  inferInstanceAs (Decidable (_ ∨ _))

/-- C9: the rule engine emits exactly one `ProcessedTransaction` per input
transaction, restored to the input position, and copies the `date`,
`amount`, `ceiling` and `remanent` fields unchanged; only
`effectiveRemanent` is new. -/
theorem c9_frame_preservation (ts : List Transaction) (qs : List FixedPeriod)
    (ps : List ExtraPeriod) :
    (apply_temporal_rules ts qs ps).length = ts.length ∧
    ∀ k : ℕ,
      ((apply_temporal_rules ts qs ps).getD k ⟨0, 0, 0, 0, 0⟩).date
          = (ts.getD k ⟨0, 0, 0, 0⟩).date ∧
      ((apply_temporal_rules ts qs ps).getD k ⟨0, 0, 0, 0, 0⟩).amount
          = (ts.getD k ⟨0, 0, 0, 0⟩).amount ∧
      ((apply_temporal_rules ts qs ps).getD k ⟨0, 0, 0, 0, 0⟩).ceiling
          = (ts.getD k ⟨0, 0, 0, 0⟩).ceiling ∧
      ((apply_temporal_rules ts qs ps).getD k ⟨0, 0, 0, 0, 0⟩).remanent
          = (ts.getD k ⟨0, 0, 0, 0⟩).remanent := by
  rw [apply_temporal_rules_spec]
  refine ⟨List.length_map _ _, ?_⟩
  intro k
  rw [List.getD_eq_getElem?_getD, List.getD_eq_getElem?_getD, List.getElem?_map]
  cases h : ts[k]? with
  | none => simp
  | some t => simp [resolveTransaction]

/-- C2 (amended): with zero `q` and zero `p` periods, every output's
`effectiveRemanent` equals `round2 (max 0 remanent)` — the input remanent
re-rounded to two decimals under the engine's rounding convention — which
coincides with the remanent exactly when it is a whole number of
hundredths. -/
theorem c2_no_rules_rounded (ts : List Transaction) :
    apply_temporal_rules ts [] []
      = ts.map (fun t => ⟨t.date, t.amount, t.ceiling, t.remanent,
          round2 (max 0 t.remanent)⟩) ∧
    ∀ k : ℤ, round2 ((k : ℚ) / 100) = (k : ℚ) / 100 := by
  constructor
  · rw [apply_temporal_rules_spec]
    apply List.map_congr_left
    intro t _
    simp [resolveTransaction, qBase, qActive, bestQ, pExtraSum]
  · intro k
    have h1 : ((k : ℚ) / 100 + EPSILON) * 100 = k + 1 / 10000000 := by
      rw [EPSILON]
      ring
    have h2 : (⌊(k : ℚ) + 1 / 10000000⌋ : ℤ) = k := by
      rw [Int.floor_eq_iff]
      constructor
      · norm_num
      · norm_num
    rw [round2, h1, roundHalfEven, h2]
    norm_num

/-- C2 counterexample: a sanitizer-valid transaction with remanent `0.005`
(amount `99.995`, ceiling `100`) passes validation untouched, yet with zero
rule periods the engine reports `effectiveRemanent = 0.01 ≠ 0.005`. -/
theorem c2_counterexample :
    split_transactions [⟨1, 19999 / 200, 100, 1 / 200⟩] none
      = ([⟨1, 19999 / 200, 100, 1 / 200⟩], [], []) ∧
    (apply_temporal_rules [⟨1, 19999 / 200, 100, 1 / 200⟩] [] []).map
      (fun p => p.effectiveRemanent) = [1 / 100] ∧
    (1 / 100 : ℚ) ≠ 1 / 200 := by
  refine ⟨?_, ?_, by norm_num⟩
  · rw [split_transactions, split_go]
    rw [if_neg (by simp), if_neg (by rw [EPSILON]; norm_num),
      if_neg (by
        simp only [not_not, is_multiple_of_100, fmod, qtrunc, ROUNDING_BASE, EPSILON]
        norm_num),
      if_neg (by norm_num), if_neg (by simp)]
    rfl
  · rw [apply_temporal_rules_spec]
    simp only [List.map_cons, List.map_nil, resolveTransaction, qBase, qActive,
      bestQ, pExtraSum]
    norm_num
    rw [round2, EPSILON]
    have h1 : ((1 : ℚ) / 200 + 1 / 1000000000) * 100 = 1 / 2 + 1 / 10000000 := by
      ring
    rw [h1, roundHalfEven]
    have hf : (⌊(1 : ℚ) / 2 + 1 / 10000000⌋ : ℤ) = 0 := by
      rw [Int.floor_eq_iff]
      norm_num
    rw [hf]
    norm_num

/-- C1: when at least one fixed-override (`q`) period is active at a
transaction's date, the engine uses as base value the `fixed` of the
active period with the latest start, ties broken by the earliest original
input position; the output's `effectiveRemanent` is that base plus the
active extras, clamped at zero and rounded. -/
theorem c1_latest_start_override
    (ts : List Transaction) (qs : List FixedPeriod) (ps : List ExtraPeriod)
    (k i : ℕ) (per : FixedPeriod)
    (hk : k < ts.length)
    (hactive : (i, per) ∈ qActive qs ((ts.getD k ⟨0, 0, 0, 0⟩).date))
    (hbest : ∀ e ∈ qActive qs ((ts.getD k ⟨0, 0, 0, 0⟩).date),
      pickGoodLE (i, per) e) :
    ((apply_temporal_rules ts qs ps).getD k ⟨0, 0, 0, 0, 0⟩).effectiveRemanent
      = round2 (max 0 (per.fixed
          + pExtraSum ps ((ts.getD k ⟨0, 0, 0, 0⟩).date))) := by
  rw [apply_temporal_rules_spec, List.getD_eq_getElem?_getD, List.getElem?_map,
    List.getD_eq_getElem?_getD, List.getElem?_eq_getElem hk]
  simp only [Option.map_some', Option.getD_some]
  unfold resolveTransaction qBase
  have hne : qActive qs ((ts.getD k ⟨0, 0, 0, 0⟩).date) ≠ [] :=
    fun hc => by rw [hc] at hactive; cases hactive
  rw [List.getD_eq_getElem?_getD, List.getElem?_eq_getElem hk] at hne hactive hbest
  simp only [Option.getD_some] at hne hactive hbest
  obtain ⟨m, hm, hmmem, hmall⟩ := bestQ_spec hne
  rw [hm]
  have h1 := hmall (i, per) hactive
  have h2 := hbest m hmmem
  have hstarts : m.2.start = per.start ∧ m.1 = i := by
    unfold pickGoodLE at h1 h2
    simp only at h1 h2
    omega
  have hmenum : (m.1, m.2) ∈ qs.enum := (List.mem_filter.1 hmmem).1
  have hienum : (i, per) ∈ qs.enum := (List.mem_filter.1 hactive).1
  rw [hstarts.2] at hmenum
  have : m.2 = per := enum_fst_inj hmenum hienum
  rw [← this]

theorem c1_latest_start_override_witness :
    ((apply_temporal_rules [Transaction.mk 10 0 0 1]
        [FixedPeriod.mk 5 15 7, FixedPeriod.mk 5 20 9] []).getD 0
      ⟨0, 0, 0, 0, 0⟩).effectiveRemanent
      = round2 (max 0 ((FixedPeriod.mk 5 15 7).fixed
          + pExtraSum []
              (([Transaction.mk 10 0 0 1].getD 0 ⟨0, 0, 0, 0⟩).date))) := by
  refine c1_latest_start_override [Transaction.mk 10 0 0 1]
    [FixedPeriod.mk 5 15 7, FixedPeriod.mk 5 20 9] [] 0 0 (FixedPeriod.mk 5 15 7)
    (by norm_num) ?_ ?_
  · simp [qActive, List.enum, List.enumFrom]
  · intro e he
    simp only [qActive, List.enum, List.enumFrom, List.filter] at he
    norm_num at he
    rcases he with rfl | rfl
    · exact pickGoodLE_refl _
    · right
      exact ⟨rfl, by norm_num⟩

/-! ### Shape facts for C8 -/

theorem split_go_length (mi : Option ℚ) :
    ∀ (ts : List Transaction) (seen : List ℕ),
      (split_go mi ts seen).1.length + (split_go mi ts seen).2.1.length
        + (split_go mi ts seen).2.2.length = ts.length
  | [], _ => rfl
  | t :: rest, seen => by
    simp only [split_go]
    split_ifs <;>
      simp only [List.length_cons] <;>
      have := split_go_length mi rest seen <;>
      have := split_go_length mi rest (t.date :: seen) <;>
      omega

theorem partitionByFlags_length (processed : List ProcessedTransaction)
    (flags : List Bool) :
    (partitionByFlags processed flags).1.length
      + (partitionByFlags processed flags).2.length = processed.length := by
  unfold partitionByFlags
  rw [← List.enum_length (l := processed)]
  generalize processed.enum = l
  induction l with
  | nil => rfl
  | cons e rest ih =>
    rw [List.foldr_cons, List.length_cons]
    by_cases h : flags.getD e.1 false
    · simp only [if_pos h, List.length_cons]
      omega
    · simp only [if_neg h, List.length_cons]
      omega

theorem sum_by_date_range_length (ts : List ProcessedTransaction)
    (ks : List DateRange) : (sum_by_date_range ts ks).length = ks.length := by
  unfold sum_by_date_range
  by_cases h : ks.isEmpty
  · rw [if_pos h]
    rw [List.isEmpty_iff] at h
    rw [h]
    rfl
  · rw [if_neg h]
    exact List.length_map _ _

theorem calculate_returns_savings_length (request : ReturnsRequest)
    (annual_rate : ℚ) (is_nps : Bool) :
    (calculate_returns request annual_rate is_nps).savingsByDates.length
      = request.k.length := by
  unfold calculate_returns
  simp only
  rw [List.length_map]
  exact sum_by_date_range_length _ _

/-- C8: the filter and returns pipelines are total functions producing
well-formed results on every input: the filter response accounts for every
input transaction exactly once across `valid` and `invalid`, and the
returns responses contain exactly one savings entry per requested window
(possibly zero when no windows are supplied). -/
theorem c8_totality_shapes :
    (∀ request : TransactionFilterRequest,
      (filter_transactions request).valid.length
        + (filter_transactions request).invalid.length
        = request.transactions.length) ∧
    (∀ request : ReturnsRequest,
      (calculate_nps_returns request).savingsByDates.length
        = request.k.length) ∧
    (∀ request : ReturnsRequest,
      (calculate_index_returns request).savingsByDates.length
        = request.k.length) := by
  refine ⟨?_, ?_, ?_⟩
  · intro request
    unfold filter_transactions
    have hsplit := split_go_length none request.transactions []
    have happly : (apply_temporal_rules
        (split_transactions request.transactions none).1 request.q
          request.p).length
        = (split_transactions request.transactions none).1.length := by
      rw [apply_temporal_rules_spec]
      exact List.length_map _ _
    by_cases hk : request.k.isEmpty
    · simp only [if_pos hk, List.length_append]
      unfold split_transactions at *
      omega
    · simp only [if_neg hk, List.length_append]
      have hpart := partitionByFlags_length
        (apply_temporal_rules (split_transactions request.transactions none).1
          request.q request.p)
        (markGo (List.insertionSort iptDateLE
          (apply_temporal_rules (split_transactions request.transactions none).1
            request.q request.p).enum)
          (merge_ranges request.k)
          (List.replicate (apply_temporal_rules
            (split_transactions request.transactions none).1 request.q
              request.p).length false))
      unfold split_transactions at *
      omega
  · intro request
    exact calculate_returns_savings_length request NPS_RATE true
  · intro request
    exact calculate_returns_savings_length request INDEX_RATE false
